import Mathlib

/-!
Shallow embedding of the rust-coinselect coin-selection library
(types `src/types.rs`, arithmetic `src/utils.rs`, the five selection
algorithms `src/algorithms/{bnb,fifo,knapsack,lowestlarger,srd}.rs`
and the dispatcher `src/selectcoin.rs`), together with theorems
settling the specification claims about it.

Modelling conventions:
* `u64`/`u32`/`usize` quantities are modelled as `ℕ`; all the
  subtractions performed by the code are saturating (`saturating_sub`),
  which is exactly `ℕ` truncated subtraction.
* `f32` feerates are modelled as `ℚ`; the cast `(x as f32).ceil() as u64`
  (which clamps negative values to 0) is modelled as `Int.toNat ⌈x⌉`.
  So that concrete runs are kernel-computable, the ceilings are computed
  by integer division on the numerator/denominator of the rational; the
  lemmas `feeRaw_eq` and `wasteTermRaw_eq` certify that these integer
  computations equal the textbook `Int.toNat ⌈_⌉` expressions.
* Randomness (`rng.gen_bool(0.5)` coin flips) is an explicit stream
  `ℕ → Bool` parameter, and `shuffle` an explicit permutation parameter;
  theorems quantify over all streams/permutations.
* The dispatcher spawns one thread per algorithm and folds each result
  into a mutex-guarded `SharedState`; since each update is atomic, a run
  is a fold of the per-algorithm results in an arbitrary completion
  order, which the theorems quantify over.
-/

/-- `OutputGroup` from `src/types.rs`: one selection candidate. -/
structure OutputGroup where
  value : ℕ
  weight : ℕ
  input_count : ℕ
  creation_sequence : Option ℕ
deriving DecidableEq

instance : Inhabited OutputGroup := ⟨⟨0, 0, 0, none⟩⟩

/-- `ExcessStrategy` from `src/types.rs`. -/
inductive ExcessStrategy
  | toFee
  | toRecipient
  | toChange
deriving DecidableEq

/-- `CoinSelectionOpt` from `src/types.rs`.  The snapshot of the sources uses
both the `avg_input_weight`/`avg_output_weight` and the
`cost_per_input`/`cost_per_output` names for the same two fields (the
algorithms read `cost_per_input`/`cost_per_output`); we use the latter. -/
structure CoinSelectionOpt where
  target_value : ℕ
  target_feerate : ℚ
  long_term_feerate : Option ℚ
  min_absolute_fee : ℕ
  base_weight : ℕ
  change_weight : ℕ
  change_cost : ℕ
  cost_per_input : ℕ
  cost_per_output : ℕ
  min_change_value : ℕ
  excess_strategy : ExcessStrategy
deriving DecidableEq

/-- `SelectionError` from `src/types.rs`, including the two fee-validation
variants constructed and matched by `src/utils.rs`. -/
inductive SelectionError
  | insufficientFunds
  | noSolutionFound
  | nonPositiveFeeRate
  | abnormallyHighFeeRate
deriving DecidableEq

/-- `SelectionOutput` from `src/types.rs`; the `WasteMetric(u64)` newtype is
inlined as a bare `ℕ`. -/
structure SelectionOutput where
  selected_inputs : List ℕ
  waste : ℕ
deriving DecidableEq

/-- Ceiling of the integer fraction `a / b` (for `b > 0`), computed by
integer division so that it is kernel-reducible. -/
def ceilDiv (a : ℤ) (b : ℕ) : ℤ := -((-a) / (b : ℤ))

theorem ceilDiv_eq (a : ℤ) (b : ℕ) : ceilDiv a b = ⌈(a : ℚ) / (b : ℚ)⌉ := by
  have h1 : ⌈(a : ℚ) / (b : ℚ)⌉ = -⌊-((a : ℚ) / (b : ℚ))⌋ := by
    rw [Int.floor_neg]
    simp
  rw [ceilDiv, h1]
  congr 1
  rw [← Rat.floor_intCast_div_natCast (-a) b]
  congr 1
  push_cast
  ring

theorem cast_mul_div_aux (w : ℕ) (n : ℤ) (d : ℕ) :
    (w : ℚ) * ((n : ℚ) / (d : ℚ)) = (((w : ℤ) * n : ℤ) : ℚ) / ((d : ℕ) : ℚ) := by
  push_cast
  ring

theorem mul_rat_eq_div (w : ℕ) (r : ℚ) :
    (w : ℚ) * r = (((w : ℤ) * r.num : ℤ) : ℚ) / ((r.den : ℕ) : ℚ) := by
  conv_lhs => rw [← Rat.num_div_den r]
  exact cast_mul_div_aux w r.num r.den

/-- The fee arithmetic shared by every algorithm:
`(weight as f32 * rate).ceil() as u64` (the body of `calculate_fee` in
`src/utils.rs`, and the whole of the non-validating `calculate_fee` the
algorithms call).  Computed on `r.num`/`r.den` for kernel reducibility;
`feeRaw_eq` gives the textbook form. -/
def feeRaw (w : ℕ) (r : ℚ) : ℕ := (ceilDiv ((w : ℤ) * r.num) r.den).toNat

theorem feeRaw_eq (w : ℕ) (r : ℚ) : feeRaw w r = (⌈(w : ℚ) * r⌉).toNat := by
  rw [feeRaw, mul_rat_eq_div, ← ceilDiv_eq]

instance {ε α : Type} [DecidableEq ε] [DecidableEq α] : DecidableEq (Except ε α)
  | .error e1, .error e2 =>
      if h : e1 = e2 then .isTrue (by rw [h])
      else .isFalse (fun hc => h (by injection hc))
  | .error _, .ok _ => .isFalse (fun hc => Except.noConfusion hc)
  | .ok _, .error _ => .isFalse (fun hc => Except.noConfusion hc)
  | .ok a1, .ok a2 =>
      if h : a1 = a2 then .isTrue (by rw [h])
      else .isFalse (fun hc => h (by injection hc))

/-- `calculate_fee` from `src/utils.rs` (lines 67-76): validates the rate and
returns `ceil(weight * rate)`. -/
def calculate_fee (weight : ℕ) (rate : ℚ) : Except SelectionError ℕ :=
  if rate ≤ 0 then .error .nonPositiveFeeRate
  else if 1000 < rate then .error .abnormallyHighFeeRate
  else .ok (feeRaw weight rate)

/-- `effective_value` from `src/utils.rs`: candidate value minus its own
spend fee, with saturating subtraction. -/
def effective_value (output : OutputGroup) (feerate : ℚ) : ℕ :=
  output.value - feeRaw output.weight feerate

theorem cast_sub_div_aux (n1 : ℤ) (d1 : ℕ) (n2 : ℤ) (d2 : ℕ)
    (h1 : (d1 : ℚ) ≠ 0) (h2 : (d2 : ℚ) ≠ 0) :
    (n1 : ℚ) / (d1 : ℚ) - (n2 : ℚ) / (d2 : ℚ) =
      ((n1 * d2 - n2 * d1 : ℤ) : ℚ) / ((d1 * d2 : ℕ) : ℚ) := by
  push_cast
  field_simp
  ring

theorem sub_rat_eq_div (tf ltf : ℚ) :
    tf - ltf = ((tf.num * ltf.den - ltf.num * tf.den : ℤ) : ℚ) /
      ((tf.den * ltf.den : ℕ) : ℚ) := by
  have h1 : ((tf.den : ℕ) : ℚ) ≠ 0 := by exact_mod_cast tf.den_nz
  have h2 : ((ltf.den : ℕ) : ℚ) ≠ 0 := by exact_mod_cast ltf.den_nz
  conv_lhs => rw [← Rat.num_div_den tf, ← Rat.num_div_den ltf]
  exact cast_sub_div_aux tf.num tf.den ltf.num ltf.den h1 h2

/-- The long-term-feerate term of `calculate_waste`:
`(accumulated_weight as f32 * (target_feerate - long_term_feerate)).ceil() as u64`.
The `as u64` cast clamps negatives to zero, hence `Int.toNat`. -/
def wasteTermRaw (w : ℕ) (tf ltf : ℚ) : ℕ :=
  (ceilDiv ((w : ℤ) * (tf.num * ltf.den - ltf.num * tf.den)) (tf.den * ltf.den)).toNat

theorem wasteTermRaw_eq (w : ℕ) (tf ltf : ℚ) :
    wasteTermRaw w tf ltf = (⌈(w : ℚ) * (tf - ltf)⌉).toNat := by
  rw [wasteTermRaw, ceilDiv_eq]
  congr 2
  rw [sub_rat_eq_div tf ltf]
  push_cast
  ring

theorem wasteTermRaw_of_rate_le (w : ℕ) (tf ltf : ℚ) (h : tf ≤ ltf) :
    wasteTermRaw w tf ltf = 0 := by
  rw [wasteTermRaw_eq]
  have hle : (w : ℚ) * (tf - ltf) ≤ 0 :=
    mul_nonpos_of_nonneg_of_nonpos (by positivity) (by linarith)
  have hc : ⌈(w : ℚ) * (tf - ltf)⌉ ≤ 0 := Int.ceil_le.mpr (by exact_mod_cast hle)
  omega

/-- `calculate_waste` from `src/utils.rs` (lines 7-33). -/
def calculate_waste (options : CoinSelectionOpt)
    (accumulated_value accumulated_weight estimated_fee : ℕ) : ℕ :=
  let waste : ℕ :=
    match options.long_term_feerate with
    | some long_term_feerate =>
        wasteTermRaw accumulated_weight options.target_feerate long_term_feerate
    | none => 0
  if options.excess_strategy ≠ ExcessStrategy.toChange then
    waste + (accumulated_value - options.target_value - estimated_fee)
  else
    waste + options.change_cost

/-- C3: the fee function on claim-relevant rates. -/
theorem calculate_fee_cases (weight : ℕ) (rate : ℚ) :
    (rate ≤ 0 → calculate_fee weight rate = .error .nonPositiveFeeRate) ∧
    (1000 < rate → calculate_fee weight rate = .error .abnormallyHighFeeRate) ∧
    (0 < rate → rate ≤ 1000 →
      calculate_fee weight rate = .ok (Int.toNat ⌈(weight : ℚ) * rate⌉)) := by
  refine ⟨fun h => ?_, fun h => ?_, fun h1 h2 => ?_⟩
  · rw [calculate_fee, if_pos h]
  · rw [calculate_fee, if_neg (by linarith), if_pos h]
  · rw [calculate_fee, if_neg (by linarith), if_neg (by linarith), feeRaw_eq]

theorem calculate_fee_cases_witness :
    calculate_fee 60 5 = .ok (Int.toNat ⌈(60 : ℚ) * 5⌉) ∧
    calculate_fee 60 5 = .ok 300 ∧
    calculate_fee 60 0 = .error .nonPositiveFeeRate ∧
    calculate_fee 60 2000 = .error .abnormallyHighFeeRate :=
  ⟨(calculate_fee_cases 60 5).2.2 (by norm_num) (by norm_num),
   by decide, by decide, by decide⟩

/-- Options used to exhibit the behaviour of the long-term-feerate waste
term: `target_feerate = 1 < 2 = long_term_feerate`, excess to fee. -/
def wasteExOpts : CoinSelectionOpt :=
  { target_value := 0
    target_feerate := 1
    long_term_feerate := some 2
    min_absolute_fee := 0
    base_weight := 0
    change_weight := 0
    change_cost := 0
    cost_per_input := 0
    cost_per_output := 0
    min_change_value := 0
    excess_strategy := ExcessStrategy.toFee }

/-- Modelled from the spec words for claim C4: the waste with the
long-term term kept signed, so that a negative
`ceil(accumulated_weight * (target_feerate - long_term_feerate))`
diminishes the other waste components by its absolute value. -/
def wasteClaimC4 (options : CoinSelectionOpt)
    (accumulated_value accumulated_weight estimated_fee : ℕ) : ℤ :=
  (match options.long_term_feerate with
   | some ltf => ⌈(accumulated_weight : ℚ) * (options.target_feerate - ltf)⌉
   | none => 0)
  + (if options.excess_strategy ≠ ExcessStrategy.toChange then
      ((accumulated_value : ℤ) - (options.target_value : ℤ) - (estimated_fee : ℤ)) ⊔ 0
    else (options.change_cost : ℤ))

/-- C4 counterexample: with `target_feerate = 1`, `long_term_feerate = 2`,
weight 10, excess 5, the ceil term is `-10`, but the code's `as u64` cast
clamps it to 0, so the returned waste is the full 5, not 5 diminished
by 10 as the claim requires. -/
theorem calculate_waste_ltf_counterexample :
    calculate_waste wasteExOpts 5 10 0 = 5 ∧
    ⌈(10 : ℚ) * ((1 : ℚ) - 2)⌉ = -10 ∧
    (calculate_waste wasteExOpts 5 10 0 : ℤ) ≠ wasteClaimC4 wasteExOpts 5 10 0 := by
  have hceil : ⌈(10 : ℚ) * ((1 : ℚ) - 2)⌉ = -10 := by
    have h : (10 : ℚ) * ((1 : ℚ) - 2) = ((-10 : ℤ) : ℚ) := by norm_num
    rw [h, Int.ceil_intCast]
  have hceil2 : ⌈((10 : ℕ) : ℚ) * ((1 : ℚ) - 2)⌉ = -10 := by
    have h : ((10 : ℕ) : ℚ) * ((1 : ℚ) - 2) = ((-10 : ℤ) : ℚ) := by push_cast; norm_num
    rw [h, Int.ceil_intCast]
  refine ⟨by decide, hceil, ?_⟩
  have h1 : calculate_waste wasteExOpts 5 10 0 = 5 := by decide
  have h2 : wasteClaimC4 wasteExOpts 5 10 0 = -5 := by
    rw [wasteClaimC4]
    have hceil3 : ⌈(-10 : ℚ)⌉ = (-10 : ℤ) := by
      rw [show (-10 : ℚ) = ((-10 : ℤ) : ℚ) by norm_num, Int.ceil_intCast]
    norm_num [wasteExOpts, hceil3]
    rw [if_neg (by decide : ¬ (ExcessStrategy.toFee = ExcessStrategy.toChange))]
    norm_num
  rw [h1, h2]
  decide

/-- C4 (amended): when `long_term_feerate` is set and
`target_feerate < long_term_feerate`, the ceil term is at most zero and the
unsigned cast clamps it to zero, so it does not reduce the waste: the
returned waste equals the remaining components (excess or change cost)
undiminished. -/
theorem calculate_waste_ltf_clamped (options : CoinSelectionOpt) (ltf : ℚ)
    (hltf : options.long_term_feerate = some ltf)
    (hlt : options.target_feerate < ltf)
    (accumulated_value accumulated_weight estimated_fee : ℕ) :
    calculate_waste options accumulated_value accumulated_weight estimated_fee =
      (if options.excess_strategy ≠ ExcessStrategy.toChange then
        accumulated_value - options.target_value - estimated_fee
      else options.change_cost) := by
  rw [calculate_waste, hltf]
  simp only [wasteTermRaw_of_rate_le _ _ _ (le_of_lt hlt)]
  split <;> simp

theorem calculate_waste_ltf_clamped_witness :
    wasteExOpts.long_term_feerate = some 2 ∧
    calculate_waste wasteExOpts 5 10 0 = 5 :=
  ⟨rfl, by
    have h := calculate_waste_ltf_clamped wasteExOpts 2 rfl (by norm_num [wasteExOpts]) 5 10 0
    simpa using h⟩

/-- `SharedState` from `src/selectcoin.rs`: the mutex-guarded record shared
by the five algorithm threads. -/
structure SharedState where
  result : Except SelectionError SelectionOutput
  any_success : Bool

/-- One atomic update of the shared state with one algorithm's result
(`src/selectcoin.rs`, the body of the spawned closure, lines 40-56). -/
def dispatcherStep (state : SharedState)
    (r : Except SelectionError SelectionOutput) : SharedState :=
  match r with
  | .ok selection_output =>
      match state.result with
      | .ok current_best =>
          if selection_output.waste < current_best.waste then
            { result := .ok selection_output, any_success := true }
          else state
      | .error _ => { result := .ok selection_output, any_success := true }
  | .error e =>
      if e = SelectionError.insufficientFunds ∧ state.any_success = false then
        { result := .error .insufficientFunds, any_success := state.any_success }
      else state

/-- The shared state before any thread finishes. -/
def initSharedState : SharedState :=
  { result := .error .noSolutionFound, any_success := false }

/-- `select_coin` from `src/selectcoin.rs`, as a fold of the per-algorithm
results in their (arbitrary) completion order. -/
def select_coin (results : List (Except SelectionError SelectionOutput)) :
    Except SelectionError SelectionOutput :=
  (results.foldl dispatcherStep initSharedState).result

/-- Reachability invariant of the shared state: the `any_success` flag is
set exactly when the stored result is a success. -/
def StateWF (s : SharedState) : Prop :=
  s.any_success = true ↔ ∃ b, s.result = .ok b

theorem initSharedState_wf : StateWF initSharedState := by
  constructor
  · intro h
    simp [initSharedState] at h
  · rintro ⟨b, hb⟩
    simp [initSharedState] at hb

theorem stateWF_step (s : SharedState) (r : Except SelectionError SelectionOutput)
    (hs : StateWF s) : StateWF (dispatcherStep s r) := by
  cases r with
  | ok o =>
      cases hre : s.result with
      | ok best =>
          by_cases hlt : o.waste < best.waste
          · simp only [dispatcherStep, hre, if_pos hlt]
            exact ⟨fun _ => ⟨o, rfl⟩, fun _ => rfl⟩
          · simp only [dispatcherStep, hre, if_neg hlt]
            exact hs
      | error e =>
          simp only [dispatcherStep, hre]
          exact ⟨fun _ => ⟨o, rfl⟩, fun _ => rfl⟩
  | error e =>
      by_cases hc : e = SelectionError.insufficientFunds ∧ s.any_success = false
      · simp only [dispatcherStep, if_pos hc]
        constructor
        · intro h
          rw [hc.2] at h
          exact absurd h (by simp)
        · rintro ⟨b, hb⟩
          exact Except.noConfusion hb
      · simp only [dispatcherStep, if_neg hc]
        exact hs

theorem dispatcher_fold_ok :
    ∀ (rs : List (Except SelectionError SelectionOutput)) (s : SharedState),
      StateWF s → ∀ out, (rs.foldl dispatcherStep s).result = .ok out →
        (∀ o, .ok o ∈ rs → out.waste ≤ o.waste) ∧
        (∀ b, s.result = .ok b → out.waste ≤ b.waste) := by
  intro rs
  induction rs with
  | nil =>
      intro s hs out hout
      refine ⟨fun o ho => absurd ho (List.not_mem_nil _), fun b hb => ?_⟩
      simp only [List.foldl_nil] at hout
      rw [hb] at hout
      cases hout
      exact le_refl _
  | cons r rest ih =>
      intro s hs out hout
      simp only [List.foldl_cons] at hout
      have hwf' := stateWF_step s r hs
      obtain ⟨ih1, ih2⟩ := ih (dispatcherStep s r) hwf' out hout
      constructor
      · intro o ho
        rcases List.mem_cons.mp ho with hr | hrest
        · subst hr
          cases hre : s.result with
          | ok best =>
              by_cases hlt : o.waste < best.waste
              · exact ih2 o (by simp only [dispatcherStep, hre, if_pos hlt])
              · have hbest := ih2 best
                  (by simp only [dispatcherStep, hre, if_neg hlt])
                omega
          | error e => exact ih2 o (by simp only [dispatcherStep, hre])
        · exact ih1 o hrest
      · intro b hb
        cases r with
        | ok o =>
            by_cases hlt : o.waste < b.waste
            · have h1 := ih2 o (by simp only [dispatcherStep, hb, if_pos hlt])
              omega
            · exact ih2 b (by simp only [dispatcherStep, hb, if_neg hlt])
        | error e =>
            have hany : s.any_success = true := hs.mpr ⟨b, hb⟩
            have hnc : ¬ (e = SelectionError.insufficientFunds ∧ s.any_success = false) := by
              rintro ⟨_, h2⟩
              rw [hany] at h2
              exact Bool.noConfusion h2
            exact ih2 b (by simp only [dispatcherStep, if_neg hnc]; exact hb)

theorem dispatcher_fold_untouched :
    ∀ (rs : List (Except SelectionError SelectionOutput)) (s : SharedState),
      (∀ o, .ok o ∉ rs) → .error .insufficientFunds ∉ rs →
        rs.foldl dispatcherStep s = s := by
  intro rs
  induction rs with
  | nil => intro s _ _; rfl
  | cons r rest ih =>
      intro s hok hif
      simp only [List.foldl_cons]
      have hstep : dispatcherStep s r = s := by
        cases r with
        | ok o => exact absurd (List.mem_cons_self _ _) (hok o)
        | error e =>
            have hne : e ≠ SelectionError.insufficientFunds := by
              intro he
              subst he
              exact hif (List.mem_cons_self _ _)
            have hnc : ¬ (e = SelectionError.insufficientFunds ∧ s.any_success = false) := by
              rintro ⟨h1, _⟩
              exact hne h1
            simp only [dispatcherStep, if_neg hnc]
      rw [hstep]
      exact ih s (fun o ho => hok o (List.mem_cons_of_mem _ ho))
        (fun h => hif (List.mem_cons_of_mem _ h))

theorem dispatcher_fold_ok_of_ok :
    ∀ (rs : List (Except SelectionError SelectionOutput)) (s : SharedState),
      StateWF s → (∃ b, s.result = .ok b) →
        ∃ out, (rs.foldl dispatcherStep s).result = .ok out := by
  intro rs
  induction rs with
  | nil =>
      intro s _ hb
      simpa using hb
  | cons r rest ih =>
      intro s hs hb
      obtain ⟨b, hb⟩ := hb
      simp only [List.foldl_cons]
      refine ih (dispatcherStep s r) (stateWF_step s r hs) ?_
      cases r with
      | ok o =>
          by_cases hlt : o.waste < b.waste
          · exact ⟨o, by simp only [dispatcherStep, hb, if_pos hlt]⟩
          · exact ⟨b, by simp only [dispatcherStep, hb, if_neg hlt]⟩
      | error e =>
          have hany : s.any_success = true := hs.mpr ⟨b, hb⟩
          have hnc : ¬ (e = SelectionError.insufficientFunds ∧ s.any_success = false) := by
            rintro ⟨_, h2⟩
            rw [hany] at h2
            exact Bool.noConfusion h2
          exact ⟨b, by simp only [dispatcherStep, if_neg hnc]; exact hb⟩

theorem dispatcher_fold_ok_of_mem_ok :
    ∀ (rs : List (Except SelectionError SelectionOutput)) (s : SharedState),
      StateWF s → (∃ o, .ok o ∈ rs) →
        ∃ out, (rs.foldl dispatcherStep s).result = .ok out := by
  intro rs
  induction rs with
  | nil =>
      intro s _ h
      obtain ⟨o, ho⟩ := h
      exact absurd ho (List.not_mem_nil _)
  | cons r rest ih =>
      intro s hs h
      simp only [List.foldl_cons]
      have hwf' := stateWF_step s r hs
      cases r with
      | ok o =>
          refine dispatcher_fold_ok_of_ok rest (dispatcherStep s (.ok o)) hwf' ?_
          cases hre : s.result with
          | ok best =>
              by_cases hlt : o.waste < best.waste
              · exact ⟨o, by simp only [dispatcherStep, hre, if_pos hlt]⟩
              · exact ⟨best, by simp only [dispatcherStep, hre, if_neg hlt]⟩
          | error e => exact ⟨o, by simp only [dispatcherStep, hre]⟩
      | error e =>
          obtain ⟨o, ho⟩ := h
          rcases List.mem_cons.mp ho with hr | hrest
          · exact Except.noConfusion hr
          · exact ih (dispatcherStep s (.error e)) hwf' ⟨o, hrest⟩

theorem dispatcher_fold_if_char :
    ∀ (rs : List (Except SelectionError SelectionOutput)) (s : SharedState),
      StateWF s →
      (rs.foldl dispatcherStep s).result = .error .insufficientFunds →
        (∀ o, .ok o ∉ rs) ∧
        (.error .insufficientFunds ∈ rs ∨ s.result = .error .insufficientFunds) := by
  intro rs
  induction rs with
  | nil =>
      intro s _ h
      simp only [List.foldl_nil] at h
      exact ⟨fun o => List.not_mem_nil _, Or.inr h⟩
  | cons r rest ih =>
      intro s hs herr
      simp only [List.foldl_cons] at herr
      have hwf' := stateWF_step s r hs
      cases r with
      | ok o =>
          exfalso
          have hok : ∃ b, (dispatcherStep s (.ok o)).result = .ok b := by
            cases hre : s.result with
            | ok best =>
                by_cases hlt : o.waste < best.waste
                · exact ⟨o, by simp only [dispatcherStep, hre, if_pos hlt]⟩
                · exact ⟨best, by simp only [dispatcherStep, hre, if_neg hlt]⟩
            | error e => exact ⟨o, by simp only [dispatcherStep, hre]⟩
          obtain ⟨out, hout⟩ := dispatcher_fold_ok_of_ok rest _ hwf' hok
          rw [hout] at herr
          exact Except.noConfusion herr
      | error e =>
          obtain ⟨ihok, ihsrc⟩ := ih (dispatcherStep s (.error e)) hwf' herr
          constructor
          · intro o ho
            rcases List.mem_cons.mp ho with hr | hrest
            · exact Except.noConfusion hr
            · exact ihok o hrest
          · rcases ihsrc with hmem | hsrc
            · exact Or.inl (List.mem_cons_of_mem _ hmem)
            · by_cases hc : e = SelectionError.insufficientFunds ∧ s.any_success = false
              · exact Or.inl (by rw [hc.1]; exact List.mem_cons_self _ _)
              · simp only [dispatcherStep, if_neg hc] at hsrc
                exact Or.inr hsrc

/-- C2: the dispatcher's error policy, for every completion order of the
algorithm threads.  The overall result is `InsufficientFunds` only when no
algorithm succeeded and some algorithm reported `InsufficientFunds`;
whenever some algorithm succeeded the overall result is a success (so a
later `InsufficientFunds` can never become the result); and when nothing
succeeded and nothing reported `InsufficientFunds` the result is the
initial `NoSolutionFound`. -/
theorem select_coin_error_policy (results : List (Except SelectionError SelectionOutput)) :
    (select_coin results = .error .insufficientFunds →
      (∀ o, .ok o ∉ results) ∧ .error .insufficientFunds ∈ results) ∧
    ((∃ o, .ok o ∈ results) → ∃ out, select_coin results = .ok out) ∧
    ((∀ o, .ok o ∉ results) → .error .insufficientFunds ∉ results →
      select_coin results = .error .noSolutionFound) := by
  refine ⟨fun herr => ?_, fun hok => ?_, fun hnook hnoif => ?_⟩
  · obtain ⟨h1, h2⟩ := dispatcher_fold_if_char results initSharedState initSharedState_wf herr
    refine ⟨h1, ?_⟩
    rcases h2 with hmem | hsrc
    · exact hmem
    · exact absurd hsrc (by simp [initSharedState])
  · exact dispatcher_fold_ok_of_mem_ok results initSharedState initSharedState_wf hok
  · rw [select_coin, dispatcher_fold_untouched results initSharedState hnook hnoif]
    rfl

theorem select_coin_error_policy_witness :
    select_coin [Except.error SelectionError.noSolutionFound,
      Except.error SelectionError.insufficientFunds] =
      .error .insufficientFunds ∧
    select_coin [Except.error SelectionError.noSolutionFound] =
      .error .noSolutionFound := by
  constructor
  · decide
  · exact (select_coin_error_policy _).2.2 (by intro o; simp) (by simp)

/-- Rust `Option<u32>` ordering (`None` sorts before `Some _`), the
comparator of the FIFO sort `a.1.creation_sequence.cmp(&b.1.creation_sequence)`. -/
def seqLe : Option ℕ → Option ℕ → Prop
  | none, _ => True
  | some _, none => False
  | some a, some b => a ≤ b

instance : DecidableRel seqLe
  | none, _ => isTrue trivial
  | some _, none => isFalse (fun h => h)
  | some a, some b => Nat.decLe a b

/-- The sum of the raw `value` field over a candidate list. -/
def totalValue (inputs : List OutputGroup) : ℕ :=
  (inputs.map OutputGroup.value).sum

theorem sublist_sum_le {l1 l2 : List ℕ} (h : l1.Sublist l2) : l1.sum ≤ l2.sum := by
  induction h with
  | slnil => exact le_refl _
  | cons a h ih =>
      simp only [List.sum_cons]
      omega
  | cons₂ a h ih =>
      simp only [List.sum_cons]
      omega

theorem sum_map_take_le {α : Type} (f : α → ℕ) (l : List α) (k : ℕ) :
    ((l.take k).map f).sum ≤ (l.map f).sum :=
  sublist_sum_le ((List.take_sublist k l).map f)

theorem enum_map_value_sum (inputs : List OutputGroup) :
    ((inputs.enum).map (fun p => p.2.value)).sum = totalValue inputs := by
  have h : (inputs.enum).map (fun p => p.2.value) =
      (inputs.enum.map Prod.snd).map OutputGroup.value := by
    rw [List.map_map]
    rfl
  rw [totalValue, h, List.enum_map_snd]

/-- Accumulation state shared by the greedy loops of `fifo.rs`, `srd.rs`
and `lowestlarger.rs`: the four `mut` locals of those functions. -/
structure AccState where
  accumulated_value : ℕ
  accumulated_weight : ℕ
  selected_inputs : List ℕ
  estimated_fees : ℕ
deriving DecidableEq

/-- The ordered candidate list of `select_coin_fifo`
(`src/algorithms/fifo.rs` lines 19-33): candidates with a
`creation_sequence`, stably sorted ascending by it, followed by the
sequence-less candidates in their original order. -/
def fifoSorted (inputs : List OutputGroup) : List (ℕ × OutputGroup) :=
  (List.insertionSort (fun a b => seqLe a.2.creation_sequence b.2.creation_sequence)
      (inputs.enum.filter (fun p => p.2.creation_sequence.isSome)))
    ++ inputs.enum.filter (fun p => p.2.creation_sequence.isNone)

/-- The accumulation loop of `select_coin_fifo` (`src/algorithms/fifo.rs`
lines 35-47): before each inclusion the fee of the weight accumulated so
far is recomputed, the loop stops once the target is met. -/
def fifoLoop (options : CoinSelectionOpt) :
    List (ℕ × OutputGroup) → AccState → AccState
  | [], st => st
  | (index, og) :: rest, st =>
      let est := feeRaw st.accumulated_weight options.target_feerate
      if options.target_value + max est options.min_absolute_fee +
          options.min_change_value ≤ st.accumulated_value then
        { st with estimated_fees := est }
      else
        fifoLoop options rest
          { accumulated_value := st.accumulated_value + og.value
            accumulated_weight := st.accumulated_weight + og.weight
            selected_inputs := st.selected_inputs ++ [index]
            estimated_fees := est }

/-- `select_coin_fifo` from `src/algorithms/fifo.rs`. -/
def select_coin_fifo (inputs : List OutputGroup) (options : CoinSelectionOpt) :
    Except SelectionError SelectionOutput :=
  let st := fifoLoop options (fifoSorted inputs) ⟨0, 0, [], 0⟩
  if st.accumulated_value < options.target_value +
      max st.estimated_fees options.min_absolute_fee + options.min_change_value then
    .error .insufficientFunds
  else
    .ok ⟨st.selected_inputs,
      calculate_waste options st.accumulated_value st.accumulated_weight st.estimated_fees⟩

/-- The accumulation loop of `select_coin_srd` (`src/algorithms/srd.rs`
lines 32-47): each candidate is pushed first, then the stop condition is
checked with the recomputed fee.  (The `input_counts` accumulator of the
source is dead code and is omitted.) -/
def srdLoop (options : CoinSelectionOpt) :
    List (ℕ × OutputGroup) → AccState → AccState
  | [], st => st
  | (index, input) :: rest, st =>
      let accumulated_value := st.accumulated_value + input.value
      let accumulated_weight := st.accumulated_weight + input.weight
      let selected_inputs := st.selected_inputs ++ [index]
      let est := feeRaw accumulated_weight options.target_feerate
      if options.target_value + options.min_change_value +
          max est options.min_absolute_fee ≤ accumulated_value then
        ⟨accumulated_value, accumulated_weight, selected_inputs, est⟩
      else
        srdLoop options rest ⟨accumulated_value, accumulated_weight, selected_inputs, est⟩

/-- `select_coin_srd` from `src/algorithms/srd.rs`.  The shuffled
`(index, candidate)` list produced by `randomized_inputs.shuffle(&mut rng)`
is an explicit parameter; theorems quantify over all permutations of
`inputs.enum`. -/
def select_coin_srd (randomized_inputs : List (ℕ × OutputGroup))
    (options : CoinSelectionOpt) : Except SelectionError SelectionOutput :=
  let st := srdLoop options randomized_inputs ⟨0, 0, [], 0⟩
  if st.accumulated_value < options.target_value + options.min_change_value +
      max st.estimated_fees options.min_absolute_fee then
    .error .insufficientFunds
  else
    .ok ⟨st.selected_inputs,
      calculate_waste options st.accumulated_value st.accumulated_weight st.estimated_fees⟩

/-- Rust `slice::partition_point` (binary search), as called by
`select_coin_lowestlarger`; `fuel` bounds the interval length and starts
at `xs.length`. -/
def partitionPointGo {α : Type} [Inhabited α] (p : α → Bool) (xs : List α) :
    ℕ → ℕ → ℕ → ℕ
  | left, _, 0 => left
  | left, right, fuel+1 =>
      if left < right then
        let mid := left + (right - left) / 2
        if p (xs.getD mid default) then
          partitionPointGo p xs (mid + 1) right fuel
        else
          partitionPointGo p xs left mid fuel
      else left

def partitionPoint {α : Type} [Inhabited α] (p : α → Bool) (xs : List α) : ℕ :=
  partitionPointGo p xs 0 xs.length xs.length

/-- The candidate list of `select_coin_lowestlarger`, stably sorted
ascending by effective value (`src/algorithms/lowestlarger.rs` lines 19-20). -/
def llSorted (inputs : List OutputGroup) (options : CoinSelectionOpt) :
    List (ℕ × OutputGroup) :=
  List.insertionSort
    (fun a b => effective_value a.2 options.target_feerate ≤
      effective_value b.2 options.target_feerate) inputs.enum

/-- The partition predicate of `select_coin_lowestlarger` (lines 22-24):
`input.value <= target + calculate_fee(input.weight, target_feerate)`. -/
def llPred (options : CoinSelectionOpt) (target : ℕ) (p : ℕ × OutputGroup) : Bool :=
  decide (p.2.value ≤ target + feeRaw p.2.weight options.target_feerate)

/-- The accumulation loop shared by the two phases of
`select_coin_lowestlarger` (lines 26-35 and 38-47). -/
def llLoop (options : CoinSelectionOpt) (target : ℕ) :
    List (ℕ × OutputGroup) → AccState → AccState
  | [], st => st
  | (idx, input) :: rest, st =>
      let accumulated_value := st.accumulated_value + input.value
      let accumulated_weight := st.accumulated_weight + input.weight
      let selected_inputs := st.selected_inputs ++ [idx]
      let est := feeRaw accumulated_weight options.target_feerate
      if target + max est options.min_absolute_fee ≤ accumulated_value then
        ⟨accumulated_value, accumulated_weight, selected_inputs, est⟩
      else
        llLoop options target rest ⟨accumulated_value, accumulated_weight, selected_inputs, est⟩

/-- `select_coin_lowestlarger` from `src/algorithms/lowestlarger.rs`:
phase 1 walks the prefix `take index` (the candidates whose value is at
most `target + their own fee`) in reverse; if the target is still not met,
phase 2 walks the suffix `drop index` forward. -/
def select_coin_lowestlarger (inputs : List OutputGroup)
    (options : CoinSelectionOpt) : Except SelectionError SelectionOutput :=
  let target := options.target_value + options.min_change_value
  let sorted_inputs := llSorted inputs options
  let index := partitionPoint (llPred options target) sorted_inputs
  let st1 := llLoop options target ((sorted_inputs.take index).reverse) ⟨0, 0, [], 0⟩
  let st2 :=
    if st1.accumulated_value < target + max st1.estimated_fees options.min_absolute_fee then
      llLoop options target (sorted_inputs.drop index) st1
    else st1
  if st2.accumulated_value < target + max st2.estimated_fees options.min_absolute_fee then
    .error .insufficientFunds
  else
    .ok ⟨st2.selected_inputs,
      calculate_waste options st2.accumulated_value st2.accumulated_weight st2.estimated_fees⟩

theorem sum_map_take_drop {α : Type} (f : α → ℕ) (l : List α) (n : ℕ) :
    ((l.take n).map f).sum + ((l.drop n).map f).sum = (l.map f).sum := by
  rw [← List.sum_append, ← List.map_append, List.take_append_drop]

theorem sum_map_reverse {α : Type} (f : α → ℕ) (l : List α) :
    ((l.reverse).map f).sum = (l.map f).sum := by
  rw [List.map_reverse, List.sum_reverse]

theorem fifoLoop_spec (options : CoinSelectionOpt) :
    ∀ (l : List (ℕ × OutputGroup)) (st : AccState),
      ∃ k, (fifoLoop options l st).selected_inputs =
          st.selected_inputs ++ (l.take k).map Prod.fst ∧
        (fifoLoop options l st).accumulated_value =
          st.accumulated_value + ((l.take k).map (fun p => p.2.value)).sum ∧
        (fifoLoop options l st).accumulated_weight =
          st.accumulated_weight + ((l.take k).map (fun p => p.2.weight)).sum := by
  intro l
  induction l with
  | nil =>
      intro st
      exact ⟨0, by simp [fifoLoop]⟩
  | cons hd rest ih =>
      intro st
      obtain ⟨index, og⟩ := hd
      rw [fifoLoop]
      split
      · exact ⟨0, by simp⟩
      · obtain ⟨k, h1, h2, h3⟩ := ih
          { accumulated_value := st.accumulated_value + og.value
            accumulated_weight := st.accumulated_weight + og.weight
            selected_inputs := st.selected_inputs ++ [index]
            estimated_fees := feeRaw st.accumulated_weight options.target_feerate }
        refine ⟨k + 1, ?_, ?_, ?_⟩
        · rw [h1]
          simp [List.take_succ_cons]
        · rw [h2]
          simp only [List.take_succ_cons, List.map_cons, List.sum_cons]
          omega
        · rw [h3]
          simp only [List.take_succ_cons, List.map_cons, List.sum_cons]
          omega

theorem srdLoop_spec (options : CoinSelectionOpt) :
    ∀ (l : List (ℕ × OutputGroup)) (st : AccState),
      ∃ k, (srdLoop options l st).selected_inputs =
          st.selected_inputs ++ (l.take k).map Prod.fst ∧
        (srdLoop options l st).accumulated_value =
          st.accumulated_value + ((l.take k).map (fun p => p.2.value)).sum ∧
        (srdLoop options l st).accumulated_weight =
          st.accumulated_weight + ((l.take k).map (fun p => p.2.weight)).sum := by
  intro l
  induction l with
  | nil =>
      intro st
      exact ⟨0, by simp [srdLoop]⟩
  | cons hd rest ih =>
      intro st
      obtain ⟨index, input⟩ := hd
      rw [srdLoop]
      split
      · exact ⟨1, by simp⟩
      · obtain ⟨k, h1, h2, h3⟩ := ih
          ⟨st.accumulated_value + input.value, st.accumulated_weight + input.weight,
            st.selected_inputs ++ [index],
            feeRaw (st.accumulated_weight + input.weight) options.target_feerate⟩
        refine ⟨k + 1, ?_, ?_, ?_⟩
        · rw [h1]
          simp [List.take_succ_cons]
        · rw [h2]
          simp only [List.take_succ_cons, List.map_cons, List.sum_cons]
          omega
        · rw [h3]
          simp only [List.take_succ_cons, List.map_cons, List.sum_cons]
          omega

theorem llLoop_spec (options : CoinSelectionOpt) (target : ℕ) :
    ∀ (l : List (ℕ × OutputGroup)) (st : AccState),
      ∃ k, (llLoop options target l st).selected_inputs =
          st.selected_inputs ++ (l.take k).map Prod.fst ∧
        (llLoop options target l st).accumulated_value =
          st.accumulated_value + ((l.take k).map (fun p => p.2.value)).sum ∧
        (llLoop options target l st).accumulated_weight =
          st.accumulated_weight + ((l.take k).map (fun p => p.2.weight)).sum := by
  intro l
  induction l with
  | nil =>
      intro st
      exact ⟨0, by simp [llLoop]⟩
  | cons hd rest ih =>
      intro st
      obtain ⟨idx, input⟩ := hd
      rw [llLoop]
      split
      · exact ⟨1, by simp⟩
      · obtain ⟨k, h1, h2, h3⟩ := ih
          ⟨st.accumulated_value + input.value, st.accumulated_weight + input.weight,
            st.selected_inputs ++ [idx],
            feeRaw (st.accumulated_weight + input.weight) options.target_feerate⟩
        refine ⟨k + 1, ?_, ?_, ?_⟩
        · rw [h1]
          simp [List.take_succ_cons]
        · rw [h2]
          simp only [List.take_succ_cons, List.map_cons, List.sum_cons]
          omega
        · rw [h3]
          simp only [List.take_succ_cons, List.map_cons, List.sum_cons]
          omega

theorem fifoSorted_perm (inputs : List OutputGroup) :
    (fifoSorted inputs).Perm inputs.enum := by
  have h1 := List.perm_insertionSort
    (fun a b : ℕ × OutputGroup => seqLe a.2.creation_sequence b.2.creation_sequence)
    (inputs.enum.filter (fun p => p.2.creation_sequence.isSome))
  have h3 : inputs.enum.filter (fun p => p.2.creation_sequence.isNone) =
      inputs.enum.filter (fun p => !(p.2.creation_sequence.isSome)) := by
    apply List.filter_congr
    intro x _
    cases hx : x.2.creation_sequence <;> simp [hx]
  have h2 := List.filter_append_perm
    (fun p : ℕ × OutputGroup => p.2.creation_sequence.isSome) inputs.enum
  rw [fifoSorted, h3]
  exact (h1.append_right _).trans h2

theorem perm_enum_value_sum {l : List (ℕ × OutputGroup)} {inputs : List OutputGroup}
    (h : l.Perm inputs.enum) :
    (l.map (fun p => p.2.value)).sum = totalValue inputs := by
  rw [(h.map (fun p => p.2.value)).sum_eq, enum_map_value_sum]

theorem select_coin_fifo_err_of_insufficient (inputs : List OutputGroup)
    (options : CoinSelectionOpt) (h : totalValue inputs < options.target_value) :
    select_coin_fifo inputs options = .error .insufficientFunds := by
  obtain ⟨k, _, hval, _⟩ := fifoLoop_spec options (fifoSorted inputs) ⟨0, 0, [], 0⟩
  rw [show (⟨0, 0, [], 0⟩ : AccState).accumulated_value = 0 from rfl] at hval
  have hle : ((((fifoSorted inputs).take k).map (fun p => p.2.value)).sum) ≤
      totalValue inputs := by
    calc ((((fifoSorted inputs).take k).map (fun p => p.2.value)).sum)
        ≤ (((fifoSorted inputs)).map (fun p => p.2.value)).sum :=
          sum_map_take_le _ _ _
      _ = totalValue inputs := perm_enum_value_sum (fifoSorted_perm inputs)
  rw [select_coin_fifo]
  rw [if_pos (by omega)]

theorem select_coin_srd_err_of_insufficient (randomized_inputs : List (ℕ × OutputGroup))
    (inputs : List OutputGroup) (options : CoinSelectionOpt)
    (hperm : randomized_inputs.Perm inputs.enum)
    (h : totalValue inputs < options.target_value) :
    select_coin_srd randomized_inputs options = .error .insufficientFunds := by
  obtain ⟨k, _, hval, _⟩ := srdLoop_spec options randomized_inputs ⟨0, 0, [], 0⟩
  rw [show (⟨0, 0, [], 0⟩ : AccState).accumulated_value = 0 from rfl] at hval
  have hle : (((randomized_inputs.take k).map (fun p => p.2.value)).sum) ≤
      totalValue inputs := by
    calc (((randomized_inputs.take k).map (fun p => p.2.value)).sum)
        ≤ ((randomized_inputs).map (fun p => p.2.value)).sum := sum_map_take_le _ _ _
      _ = totalValue inputs := perm_enum_value_sum hperm
  rw [select_coin_srd]
  rw [if_pos (by omega)]

theorem llSorted_perm (inputs : List OutputGroup) (options : CoinSelectionOpt) :
    (llSorted inputs options).Perm inputs.enum :=
  List.perm_insertionSort _ _

theorem select_coin_lowestlarger_err_of_insufficient (inputs : List OutputGroup)
    (options : CoinSelectionOpt) (h : totalValue inputs < options.target_value) :
    select_coin_lowestlarger inputs options = .error .insufficientFunds := by
  have htot : ((llSorted inputs options).map (fun p => p.2.value)).sum =
      totalValue inputs := perm_enum_value_sum (llSorted_perm inputs options)
  rw [select_coin_lowestlarger]
  set target := options.target_value + options.min_change_value with htarget
  set sorted_inputs := llSorted inputs options with hsorted
  set index := partitionPoint (llPred options target) sorted_inputs with hindex
  obtain ⟨k1, _, hval1, _⟩ :=
    llLoop_spec options target ((sorted_inputs.take index).reverse) ⟨0, 0, [], 0⟩
  rw [show (⟨0, 0, [], 0⟩ : AccState).accumulated_value = 0 from rfl] at hval1
  set st1 := llLoop options target ((sorted_inputs.take index).reverse) ⟨0, 0, [], 0⟩
    with hst1
  have hb1 : st1.accumulated_value ≤
      (((sorted_inputs.take index)).map (fun p => p.2.value)).sum := by
    rw [hval1]
    calc 0 + ((((sorted_inputs.take index).reverse.take k1)).map (fun p => p.2.value)).sum
        ≤ (((sorted_inputs.take index).reverse).map (fun p => p.2.value)).sum := by
          have := sum_map_take_le (fun p : ℕ × OutputGroup => p.2.value)
            ((sorted_inputs.take index).reverse) k1
          omega
      _ = (((sorted_inputs.take index)).map (fun p => p.2.value)).sum :=
          sum_map_reverse _ _
  have hb2 : ∀ st2, st2 = (if st1.accumulated_value <
        target + max st1.estimated_fees options.min_absolute_fee then
      llLoop options target (sorted_inputs.drop index) st1
    else st1) → st2.accumulated_value ≤ totalValue inputs := by
    intro st2 hst2
    have hsplit := sum_map_take_drop (fun p : ℕ × OutputGroup => p.2.value)
      sorted_inputs index
    by_cases hc : st1.accumulated_value <
        target + max st1.estimated_fees options.min_absolute_fee
    · rw [if_pos hc] at hst2
      obtain ⟨k2, _, hval2, _⟩ :=
        llLoop_spec options target (sorted_inputs.drop index) st1
      have hle2 : (((sorted_inputs.drop index).take k2).map (fun p => p.2.value)).sum ≤
          ((sorted_inputs.drop index).map (fun p => p.2.value)).sum :=
        sum_map_take_le _ _ _
      rw [hst2, hval2]
      omega
    · rw [if_neg hc] at hst2
      rw [hst2]
      omega
  have hfinal := hb2 _ rfl
  rw [if_pos (by omega)]

/-- `MatchParameters` from `src/types.rs`, built by `select_coin_bnb`. -/
structure MatchParameters where
  target_for_match : ℕ
  match_range : ℕ
  target_feerate : ℚ

/-- The recursive search `bnb` from `src/algorithms/bnb.rs` (lines 75-169).
The remaining suffix of the descending-sorted list plays the role of the
`depth` index (`depth >= inputs_in_desc_value.len()` is `remaining = []`,
so the source's band checks are repeated in both branches of the match);
`coins tries` is the `rng.gen_bool(0.5)` flip of the call that enters with
that `bnb_tries` value (the entry values are strictly decreasing across
calls, so every flip reads a distinct stream position); the returned pair
carries the mutated `bnb_tries` back to the caller.  Pushing then popping
`selected_inputs` becomes passing `sel ++ [idx]` to the inclusion branch
and the unchanged `sel` to the other branch. -/
def bnb (mp : MatchParameters) (coins : ℕ → Bool) :
    List (ℕ × OutputGroup) → List ℕ → ℕ → ℕ → Option (List ℕ) × ℕ
  | [], sel, acc_eff_value, tries =>
      if mp.target_for_match + mp.match_range < acc_eff_value then (none, tries)
      else if mp.target_for_match ≤ acc_eff_value then (some sel, tries)
      else (none, tries)
  | (idx, og) :: rest, sel, acc_eff_value, tries =>
      if mp.target_for_match + mp.match_range < acc_eff_value then (none, tries)
      else if mp.target_for_match ≤ acc_eff_value then (some sel, tries)
      else if tries = 0 then (none, tries)
      else if coins tries then
        match bnb mp coins rest (sel ++ [idx])
            (acc_eff_value + effective_value og mp.target_feerate) (tries - 1) with
        | (some res, t2) => (some res, t2)
        | (none, t2) => bnb mp coins rest sel acc_eff_value t2
      else
        match bnb mp coins rest sel acc_eff_value (tries - 1) with
        | (some res, t2) => (some res, t2)
        | (none, t2) =>
            bnb mp coins rest (sel ++ [idx])
              (acc_eff_value + effective_value og mp.target_feerate) t2

/-- The candidate list of `select_coin_bnb`, stably sorted descending by
raw value (`sort_by_key(Reverse(value))`, `src/algorithms/bnb.rs` lines 31-36). -/
def bnbSorted (inputs : List OutputGroup) : List (ℕ × OutputGroup) :=
  List.insertionSort (fun a b => b.2.value ≤ a.2.value) inputs.enum

/-- The `match_parameters` record built by `select_coin_bnb`
(`src/algorithms/bnb.rs` lines 23-29). -/
def bnbParams (options : CoinSelectionOpt) : MatchParameters :=
  { target_for_match := options.target_value +
      feeRaw options.base_weight options.target_feerate + options.cost_per_output
    match_range := options.cost_per_input + options.cost_per_output
    target_feerate := options.target_feerate }

/-- `select_coin_bnb` from `src/algorithms/bnb.rs` (lines 12-70). -/
def select_coin_bnb (coins : ℕ → Bool) (inputs : List OutputGroup)
    (options : CoinSelectionOpt) : Except SelectionError SelectionOutput :=
  match (bnb (bnbParams options) coins (bnbSorted inputs) [] 0 1000000).1 with
  | some selected_coin =>
      let accumulated_value := (selected_coin.map (fun i => (inputs.getD i default).value)).sum
      let accumulated_weight := (selected_coin.map (fun i => (inputs.getD i default).weight)).sum
      .ok ⟨selected_coin, calculate_waste options accumulated_value accumulated_weight 0⟩
  | none => .error .noSolutionFound

theorem bnb_some_spec (mp : MatchParameters) (coins : ℕ → Bool) :
    ∀ (remaining : List (ℕ × OutputGroup)) (sel : List ℕ) (acc tries : ℕ)
      (res : List ℕ) (t2 : ℕ),
      bnb mp coins remaining sel acc tries = (some res, t2) →
      ∃ chosen : List (ℕ × OutputGroup),
        chosen.Sublist remaining ∧
        res = sel ++ chosen.map Prod.fst ∧
        mp.target_for_match ≤
          acc + (chosen.map (fun p => effective_value p.2 mp.target_feerate)).sum ∧
        acc + (chosen.map (fun p => effective_value p.2 mp.target_feerate)).sum ≤
          mp.target_for_match + mp.match_range := by
  intro remaining
  induction remaining with
  | nil =>
      intro sel acc tries res t2 h
      rw [bnb] at h
      split_ifs at h with h1 h2
      · simp at h
      · refine ⟨[], List.Sublist.refl _, ?_, ?_, ?_⟩
        · simp only [Prod.mk.injEq, Option.some.injEq] at h
          rw [← h.1]
          simp
        · simpa using h2
        · simpa using le_of_not_lt h1
      · simp at h
  | cons hd rest ih =>
      intro sel acc tries res t2 h
      obtain ⟨idx, og⟩ := hd
      rw [bnb] at h
      split_ifs at h with h1 h2 h3 h4
      · simp at h
      · refine ⟨[], List.nil_sublist _, ?_, ?_, ?_⟩
        · simp only [Prod.mk.injEq, Option.some.injEq] at h
          rw [← h.1]
          simp
        · simpa using h2
        · simpa using le_of_not_lt h1
      · simp at h
      · rcases hinc : bnb mp coins rest (sel ++ [idx])
            (acc + effective_value og mp.target_feerate) (tries - 1) with ⟨oinc, tinc⟩
        rw [hinc] at h
        cases oinc with
        | some r1 =>
            simp only [Prod.mk.injEq, Option.some.injEq] at h
            obtain ⟨chosen, hsub, hres, hlow, hhigh⟩ :=
              ih (sel ++ [idx]) (acc + effective_value og mp.target_feerate)
                (tries - 1) r1 tinc hinc
            refine ⟨(idx, og) :: chosen, List.Sublist.cons₂ _ hsub, ?_, ?_, ?_⟩
            · rw [← h.1, hres]
              simp
            · simp only [List.map_cons, List.sum_cons]
              omega
            · simp only [List.map_cons, List.sum_cons]
              omega
        | none =>
            obtain ⟨chosen, hsub, hres, hlow, hhigh⟩ :=
              ih sel acc tinc res t2 h
            exact ⟨chosen, List.Sublist.cons _ hsub, hres, hlow, hhigh⟩
      · rcases hexc : bnb mp coins rest sel acc (tries - 1) with ⟨oexc, texc⟩
        rw [hexc] at h
        cases oexc with
        | some r1 =>
            simp only [Prod.mk.injEq, Option.some.injEq] at h
            obtain ⟨chosen, hsub, hres, hlow, hhigh⟩ :=
              ih sel acc (tries - 1) r1 texc hexc
            exact ⟨chosen, List.Sublist.cons _ hsub, by rw [← h.1, hres], hlow, hhigh⟩
        | none =>
            obtain ⟨chosen, hsub, hres, hlow, hhigh⟩ :=
              ih (sel ++ [idx]) (acc + effective_value og mp.target_feerate)
                texc res t2 h
            refine ⟨(idx, og) :: chosen, List.Sublist.cons₂ _ hsub, ?_, ?_, ?_⟩
            · rw [hres]
              simp
            · simp only [List.map_cons, List.sum_cons]
              omega
            · simp only [List.map_cons, List.sum_cons]
              omega

theorem sum_map_le_sum_map {α : Type} (f g : α → ℕ) (l : List α)
    (h : ∀ a ∈ l, f a ≤ g a) : (l.map f).sum ≤ (l.map g).sum := by
  induction l with
  | nil => exact le_refl _
  | cons a l ih =>
      simp only [List.map_cons, List.sum_cons]
      have h1 := h a (List.mem_cons_self _ _)
      have h2 := ih (fun b hb => h b (List.mem_cons_of_mem _ hb))
      omega

theorem mem_enum_getD {inputs : List OutputGroup} {p : ℕ × OutputGroup}
    (hp : p ∈ inputs.enum) :
    p.1 < inputs.length ∧ inputs.getD p.1 default = p.2 := by
  obtain ⟨i, x⟩ := p
  obtain ⟨h1, h2⟩ := List.mem_enum hp
  exact ⟨h1, by rw [List.getD_eq_getElem _ _ h1, ← h2]⟩

theorem bnbSorted_perm (inputs : List OutputGroup) :
    (bnbSorted inputs).Perm inputs.enum :=
  List.perm_insertionSort _ _

theorem map_fst_eff_sum (inputs : List OutputGroup) (r : ℚ)
    (chosen : List (ℕ × OutputGroup))
    (hmem : ∀ p ∈ chosen, inputs.getD p.1 default = p.2) :
    ((chosen.map Prod.fst).map (fun i => effective_value (inputs.getD i default) r)).sum
      = (chosen.map (fun p => effective_value p.2 r)).sum := by
  rw [List.map_map]
  congr 1
  apply List.map_congr_left
  intro p hp
  simp only [Function.comp]
  rw [hmem p hp]

/-- C5: whenever `select_coin_bnb` succeeds, the accumulated effective value
of the returned index set lies in the acceptance band
`[target, target + match_range]` with
`target = target_value + fee(base_weight, target_feerate) + cost_per_output`
and `match_range = cost_per_input + cost_per_output`; its only failure mode
is `NoSolutionFound`, which is returned exactly when the budgeted search
`bnb` (1,000,000 tries) finds no combination in the band.  Quantified over
every coin-flip stream, i.e. every branch order. -/
theorem select_coin_bnb_band (coins : ℕ → Bool) (inputs : List OutputGroup)
    (options : CoinSelectionOpt) :
    (∀ out, select_coin_bnb coins inputs options = .ok out →
      options.target_value + feeRaw options.base_weight options.target_feerate +
          options.cost_per_output ≤
        (out.selected_inputs.map
          (fun i => effective_value (inputs.getD i default) options.target_feerate)).sum ∧
      (out.selected_inputs.map
          (fun i => effective_value (inputs.getD i default) options.target_feerate)).sum ≤
        options.target_value + feeRaw options.base_weight options.target_feerate +
          options.cost_per_output + (options.cost_per_input + options.cost_per_output)) ∧
    (∀ e, select_coin_bnb coins inputs options = .error e → e = .noSolutionFound) ∧
    ((bnb (bnbParams options) coins (bnbSorted inputs) [] 0 1000000).1 = none →
      select_coin_bnb coins inputs options = .error .noSolutionFound) := by
  rcases hres : bnb (bnbParams options) coins (bnbSorted inputs) [] 0 1000000 with ⟨o, t⟩
  refine ⟨fun out hout => ?_, fun e herr => ?_, fun hnone => ?_⟩
  · cases o with
    | some sel =>
        obtain ⟨chosen, hsub, hressel, hlow, hhigh⟩ :=
          bnb_some_spec (bnbParams options) coins (bnbSorted inputs) [] 0 1000000 sel t hres
        have hseleq : out.selected_inputs = sel := by
          rw [select_coin_bnb, hres] at hout
          simp only [Except.ok.injEq] at hout
          rw [← hout]
        have hmem : ∀ p ∈ chosen, inputs.getD p.1 default = p.2 := by
          intro p hp
          exact (mem_enum_getD ((bnbSorted_perm inputs).mem_iff.mp (hsub.mem hp))).2
        have hchosen : out.selected_inputs = chosen.map Prod.fst := by
          rw [hseleq, hressel]
          simp
        rw [hchosen, map_fst_eff_sum inputs options.target_feerate chosen hmem]
        have htf : (bnbParams options).target_for_match =
            options.target_value + feeRaw options.base_weight options.target_feerate +
              options.cost_per_output := rfl
        have hmr : (bnbParams options).match_range =
            options.cost_per_input + options.cost_per_output := rfl
        have htfr : (bnbParams options).target_feerate = options.target_feerate := rfl
        rw [htfr] at hlow hhigh
        omega
    | none =>
        rw [select_coin_bnb, hres] at hout
        exact Except.noConfusion hout
  · cases o with
    | some sel =>
        rw [select_coin_bnb, hres] at herr
        simp at herr
    | none =>
        rw [select_coin_bnb, hres] at herr
        simp only [Except.error.injEq] at herr
        exact herr.symm
  · have hn2 : (bnb (bnbParams options) coins (bnbSorted inputs) [] 0 1000000).1 = none := by
      rw [hres]
      exact hnone
    rw [select_coin_bnb, hn2]

theorem select_coin_bnb_err_of_insufficient (coins : ℕ → Bool)
    (inputs : List OutputGroup) (options : CoinSelectionOpt)
    (h : totalValue inputs < options.target_value) :
    select_coin_bnb coins inputs options = .error .noSolutionFound := by
  rcases hres : bnb (bnbParams options) coins (bnbSorted inputs) [] 0 1000000 with ⟨o, t⟩
  cases o with
  | some sel =>
      exfalso
      obtain ⟨chosen, hsub, _, hlow, _⟩ :=
        bnb_some_spec (bnbParams options) coins (bnbSorted inputs) [] 0 1000000 sel t hres
      have h1 : (chosen.map (fun p =>
          effective_value p.2 (bnbParams options).target_feerate)).sum ≤
          (chosen.map (fun p => p.2.value)).sum :=
        sum_map_le_sum_map _ _ _ (fun p _ => by
          rw [effective_value]
          exact Nat.sub_le _ _)
      have h2 : (chosen.map (fun p => p.2.value)).sum ≤
          ((bnbSorted inputs).map (fun p => p.2.value)).sum :=
        sublist_sum_le (hsub.map _)
      have h3 : ((bnbSorted inputs).map (fun p => p.2.value)).sum = totalValue inputs :=
        perm_enum_value_sum (bnbSorted_perm inputs)
      have h4 : options.target_value ≤ (bnbParams options).target_for_match := by
        have : (bnbParams options).target_for_match =
            options.target_value + feeRaw options.base_weight options.target_feerate +
              options.cost_per_output := rfl
        omega
      omega
  | none =>
      rw [select_coin_bnb, hres]

/-- The `adjusted_target` of `select_coin_knapsack`
(`src/algorithms/knapsack.rs` lines 15-17). -/
def knapAdjustedTarget (options : CoinSelectionOpt) : ℕ :=
  options.target_value + options.min_change_value +
    feeRaw options.base_weight options.target_feerate

/-- The `smaller_coins` list of `select_coin_knapsack` (lines 18-30):
candidates with raw value below the adjusted target, mapped to
`(index, effective_value, weight)` triples and stably sorted descending by
effective value. -/
def smallerCoins (inputs : List OutputGroup) (options : CoinSelectionOpt) :
    List (ℕ × ℕ × ℕ) :=
  List.insertionSort (fun a b => b.2.1 ≤ a.2.1)
    ((inputs.enum.filter (fun p => decide (p.2.value < knapAdjustedTarget options))).map
      (fun p => (p.1, effective_value p.2 options.target_feerate, p.2.weight)))

/-- `calculate_accumulated_weight` from `src/utils.rs` (lines 39-50).  The
`HashSet` of selected indices is passed as a duplicate-free list. -/
def calculate_accumulated_weight (smaller_coins : List (ℕ × ℕ × ℕ))
    (selected_inputs : List ℕ) : ℕ :=
  smaller_coins.foldl
    (fun accumulated_weight c =>
      if c.1 ∈ selected_inputs then accumulated_weight + c.2.2 else accumulated_weight) 0

/-- The `mut` locals of `knap_sack` (lines 40-44), plus the coin-stream
position: `best = none` models the `best_set_value = u64::MAX` sentinel. -/
structure KnapState where
  selected_inputs : List ℕ
  accumulated_value : ℕ
  best : Option (List ℕ × ℕ)
  pos : ℕ
deriving DecidableEq

/-- The body of the innermost loop of `knap_sack` (lines 47-76) for one
candidate: one `rng.gen_bool(0.5)` toss is drawn on every iteration;
`HashSet::insert` is insert-if-absent; an exact hit returns the trial's
selection (as `.error`, modelling the early `return`); an overshoot
records the best set and rolls the candidate back. -/
def knapStep (options : CoinSelectionOpt) (coins : ℕ → Bool) (adjusted_target : ℕ)
    (smaller_coins : List (ℕ × ℕ × ℕ)) (pass : ℕ) (st : KnapState) (c : ℕ × ℕ × ℕ) :
    Except SelectionOutput KnapState :=
  let toss_result := coins st.pos
  let pos := st.pos + 1
  if (pass = 2 ∧ c.1 ∉ st.selected_inputs) ∨ (pass = 1 ∧ toss_result = true) then
    let selected_inputs :=
      if c.1 ∈ st.selected_inputs then st.selected_inputs else st.selected_inputs ++ [c.1]
    let accumulated_value := st.accumulated_value + c.2.1
    if accumulated_value = adjusted_target then
      let accumulated_weight := calculate_accumulated_weight smaller_coins selected_inputs
      let estimated_fees := feeRaw accumulated_weight options.target_feerate
      .error ⟨selected_inputs,
        calculate_waste options accumulated_value accumulated_weight estimated_fees⟩
    else if adjusted_target ≤ accumulated_value then
      let best :=
        match st.best with
        | some (best_set, best_set_value) =>
            if accumulated_value < best_set_value then some (selected_inputs, accumulated_value)
            else some (best_set, best_set_value)
        | none => some (selected_inputs, accumulated_value)
      .ok ⟨selected_inputs.erase c.1, accumulated_value - c.2.1, best, pos⟩
    else
      .ok ⟨selected_inputs, accumulated_value, st.best, pos⟩
  else
    .ok ⟨st.selected_inputs, st.accumulated_value, st.best, pos⟩

/-- One pass of the inner `for` loop of `knap_sack` over `smaller_coins`. -/
def knapPass (options : CoinSelectionOpt) (coins : ℕ → Bool) (adjusted_target : ℕ)
    (smaller_coins : List (ℕ × ℕ × ℕ)) (pass : ℕ) :
    List (ℕ × ℕ × ℕ) → KnapState → Except SelectionOutput KnapState
  | [], st => .ok st
  | c :: rest, st =>
      match knapStep options coins adjusted_target smaller_coins pass st c with
      | .error out => .error out
      | .ok st1 => knapPass options coins adjusted_target smaller_coins pass rest st1

/-- One trial of `knap_sack` (lines 46-80): pass 1 then pass 2 over
`smaller_coins`, then the running selection and value are reset. -/
def knapTrial (options : CoinSelectionOpt) (coins : ℕ → Bool) (adjusted_target : ℕ)
    (smaller_coins : List (ℕ × ℕ × ℕ)) (st : KnapState) :
    Except SelectionOutput KnapState :=
  match knapPass options coins adjusted_target smaller_coins 1 smaller_coins st with
  | .error out => .error out
  | .ok st1 =>
      match knapPass options coins adjusted_target smaller_coins 2 smaller_coins st1 with
      | .error out => .error out
      | .ok st2 => .ok ⟨[], 0, st2.best, st2.pos⟩

/-- The 1000-trial loop of `knap_sack` (line 45). -/
def knapTrials (options : CoinSelectionOpt) (coins : ℕ → Bool) (adjusted_target : ℕ)
    (smaller_coins : List (ℕ × ℕ × ℕ)) :
    ℕ → KnapState → Except SelectionOutput KnapState
  | 0, st => .ok st
  | n + 1, st =>
      match knapTrial options coins adjusted_target smaller_coins st with
      | .error out => .error out
      | .ok st1 => knapTrials options coins adjusted_target smaller_coins n st1

/-- `knap_sack` from `src/algorithms/knapsack.rs` (lines 35-94). -/
def knap_sack (coins : ℕ → Bool) (adjusted_target : ℕ)
    (smaller_coins : List (ℕ × ℕ × ℕ)) (options : CoinSelectionOpt) :
    Except SelectionError SelectionOutput :=
  match knapTrials options coins adjusted_target smaller_coins 1000 ⟨[], 0, none, 0⟩ with
  | .error out => .ok out
  | .ok st =>
      match st.best with
      | none => .error .noSolutionFound
      | some (best_set, best_set_value) =>
          let best_set_weight := calculate_accumulated_weight smaller_coins best_set
          let estimated_fees := feeRaw best_set_weight options.target_feerate
          .ok ⟨best_set,
            calculate_waste options best_set_value best_set_weight estimated_fees⟩

/-- `select_coin_knapsack` from `src/algorithms/knapsack.rs` (lines 11-33). -/
def select_coin_knapsack (coins : ℕ → Bool) (inputs : List OutputGroup)
    (options : CoinSelectionOpt) : Except SelectionError SelectionOutput :=
  knap_sack coins (knapAdjustedTarget options) (smallerCoins inputs options) options

/-- The accumulated effective value determined by a selection: the sum of
the effective-value components of the `smaller_coins` entries whose index
is selected. -/
def selVal (smaller_coins : List (ℕ × ℕ × ℕ)) (sel : List ℕ) : ℕ :=
  ((smaller_coins.filter (fun c => decide (c.1 ∈ sel))).map (fun c => c.2.1)).sum

theorem selVal_cons (d : ℕ × ℕ × ℕ) (rest : List (ℕ × ℕ × ℕ)) (s : List ℕ) :
    selVal (d :: rest) s = (if d.1 ∈ s then d.2.1 else 0) + selVal rest s := by
  by_cases hm : d.1 ∈ s
  · simp [selVal, List.filter_cons, hm]
  · simp [selVal, List.filter_cons, hm]

theorem selVal_eq_of_iff (smaller : List (ℕ × ℕ × ℕ)) (s1 s2 : List ℕ)
    (h : ∀ c ∈ smaller, c.1 ∈ s1 ↔ c.1 ∈ s2) : selVal smaller s1 = selVal smaller s2 := by
  induction smaller with
  | nil => rfl
  | cons d rest ih =>
      rw [selVal_cons, selVal_cons,
        ih (fun c hc => h c (List.mem_cons_of_mem _ hc))]
      have hd := h d (List.mem_cons_self _ _)
      by_cases hm : d.1 ∈ s1
      · rw [if_pos hm, if_pos (hd.mp hm)]
      · rw [if_neg hm, if_neg (fun hm2 => hm (hd.mpr hm2))]

theorem selVal_insert :
    ∀ (smaller : List (ℕ × ℕ × ℕ)) (sel : List ℕ) (c : ℕ × ℕ × ℕ),
      (smaller.map (fun d => d.1)).Nodup → c ∈ smaller → c.1 ∉ sel →
      selVal smaller (sel ++ [c.1]) = selVal smaller sel + c.2.1 := by
  intro smaller
  induction smaller with
  | nil =>
      intro sel c _ hc _
      exact absurd hc (List.not_mem_nil _)
  | cons d rest ih =>
      intro sel c hnodup hc hnotin
      simp only [List.map_cons, List.nodup_cons] at hnodup
      obtain ⟨hd1, hd2⟩ := hnodup
      rcases List.mem_cons.mp hc with hcd | hcr
      · subst hcd
        rw [selVal_cons, selVal_cons]
        rw [if_pos (by simp), if_neg hnotin]
        have hrest : selVal rest (sel ++ [c.1]) = selVal rest sel := by
          apply selVal_eq_of_iff
          intro e he
          have hne : e.1 ≠ c.1 := by
            intro heq
            exact hd1 (heq ▸ List.mem_map.mpr ⟨e, he, rfl⟩)
          simp [List.mem_append, hne]
        rw [hrest]
        omega
      · have hne : d.1 ≠ c.1 := by
          intro heq
          exact hd1 (heq ▸ List.mem_map.mpr ⟨c, hcr, rfl⟩)
        rw [selVal_cons, selVal_cons, ih sel c hd2 hcr hnotin]
        by_cases hdm : d.1 ∈ sel
        · rw [if_pos (by simp [hdm]), if_pos hdm]
          omega
        · rw [if_neg (by simp [hdm, hne]), if_neg hdm]
          omega

theorem selVal_le_total (smaller : List (ℕ × ℕ × ℕ)) (sel : List ℕ) :
    selVal smaller sel ≤ (smaller.map (fun c => c.2.1)).sum :=
  sublist_sum_le ((List.filter_sublist _).map _)

theorem nodup_append_singleton {sel : List ℕ} {a : ℕ}
    (h1 : sel.Nodup) (h2 : a ∉ sel) : (sel ++ [a]).Nodup := by
  induction sel with
  | nil => simp
  | cons b t ih =>
      simp only [List.cons_append, List.nodup_cons] at h1 ⊢
      constructor
      · intro hmem
        rcases List.mem_append.mp hmem with h | h
        · exact h1.1 h
        · simp only [List.mem_singleton] at h
          subst h
          exact h2 (List.mem_cons_self _ _)
      · exact ih h1.2 (fun hm => h2 (List.mem_cons_of_mem _ hm))

theorem append_singleton_erase (sel : List ℕ) (a : ℕ) (h : a ∉ sel) :
    (sel ++ [a]).erase a = sel := by
  rw [List.erase_append_right _ h]
  simp

/-- Invariant of the running trial state of `knap_sack`: the selection is a
duplicate-free subset of the `smaller_coins` indices and
`accumulated_value` is exactly its accumulated effective value. -/
def KnapInv (smaller_coins : List (ℕ × ℕ × ℕ)) (st : KnapState) : Prop :=
  st.selected_inputs.Nodup ∧
  (∀ i ∈ st.selected_inputs, i ∈ smaller_coins.map (fun c => c.1)) ∧
  st.accumulated_value = selVal smaller_coins st.selected_inputs

/-- Invariant of the recorded best set of `knap_sack`. -/
def BestWF (smaller_coins : List (ℕ × ℕ × ℕ)) (adjusted_target : ℕ) :
    Option (List ℕ × ℕ) → Prop
  | none => True
  | some (bs, bv) =>
      bs.Nodup ∧ (∀ i ∈ bs, i ∈ smaller_coins.map (fun c => c.1)) ∧
      bv = selVal smaller_coins bs ∧ adjusted_target ≤ bv

/-- Shape of the output returned by the early exact-match `return` of
`knap_sack`. -/
def KnapExact (options : CoinSelectionOpt) (smaller_coins : List (ℕ × ℕ × ℕ))
    (adjusted_target : ℕ) (out : SelectionOutput) : Prop :=
  out.selected_inputs.Nodup ∧
  (∀ i ∈ out.selected_inputs, i ∈ smaller_coins.map (fun c => c.1)) ∧
  selVal smaller_coins out.selected_inputs = adjusted_target ∧
  out.waste = calculate_waste options adjusted_target
    (calculate_accumulated_weight smaller_coins out.selected_inputs)
    (feeRaw (calculate_accumulated_weight smaller_coins out.selected_inputs)
      options.target_feerate)

theorem knapStep_spec (options : CoinSelectionOpt) (coins : ℕ → Bool)
    (adjusted_target : ℕ) (smaller : List (ℕ × ℕ × ℕ))
    (hnodup : (smaller.map (fun c => c.1)).Nodup)
    (pass : ℕ) (st : KnapState) (c : ℕ × ℕ × ℕ)
    (hc : c ∈ smaller) (hInv : KnapInv smaller st)
    (hBest : BestWF smaller adjusted_target st.best)
    (hpass1 : pass = 1 → c.1 ∉ st.selected_inputs) :
    (match knapStep options coins adjusted_target smaller pass st c with
     | .error out => KnapExact options smaller adjusted_target out
     | .ok st1 => KnapInv smaller st1 ∧ BestWF smaller adjusted_target st1.best ∧
         (∀ i ∈ st1.selected_inputs, i ∈ st.selected_inputs ∨ i = c.1)) := by
  obtain ⟨hnd, hmem, hval⟩ := hInv
  simp only [knapStep]
  by_cases hguard : (pass = 2 ∧ c.1 ∉ st.selected_inputs) ∨ (pass = 1 ∧ coins st.pos = true)
  case neg =>
    rw [if_neg hguard]
    exact ⟨⟨hnd, hmem, hval⟩, hBest, fun i hi => Or.inl hi⟩
  case pos =>
    have hnotin : c.1 ∉ st.selected_inputs := by
      rcases hguard with ⟨_, h⟩ | ⟨h1, _⟩
      · exact h
      · exact hpass1 h1
    rw [if_pos hguard]
    simp only [if_neg hnotin]
    have hsel : selVal smaller (st.selected_inputs ++ [c.1]) =
        st.accumulated_value + c.2.1 := by
      rw [selVal_insert smaller st.selected_inputs c hnodup hc hnotin, hval]
    have hmem2 : ∀ i ∈ st.selected_inputs ++ [c.1], i ∈ smaller.map (fun d => d.1) := by
      intro i hi
      rcases List.mem_append.mp hi with h | h
      · exact hmem i h
      · simp only [List.mem_singleton] at h
        subst h
        exact List.mem_map.mpr ⟨c, hc, rfl⟩
    split_ifs with heq hge
    · -- exact hit: the early return
      exact ⟨nodup_append_singleton hnd hnotin, hmem2, by rw [hsel, heq], by rw [heq]⟩
    · -- overshoot: record best and roll back
      have herase : (st.selected_inputs ++ [c.1]).erase c.1 = st.selected_inputs :=
        append_singleton_erase _ _ hnotin
      refine ⟨⟨?_, ?_, ?_⟩, ?_, ?_⟩
      · simpa [herase] using hnd
      · intro i hi
        simp only [herase] at hi
        exact hmem i hi
      · simp only [herase]
        omega
      · have hnewWF : BestWF smaller adjusted_target
            (some (st.selected_inputs ++ [c.1], st.accumulated_value + c.2.1)) :=
          ⟨nodup_append_singleton hnd hnotin, hmem2, hsel.symm, hge⟩
        rcases hb : st.best with _ | ⟨bs, bv⟩
        · simpa using hnewWF
        · rw [hb] at hBest
          by_cases hlt : st.accumulated_value + c.2.1 < bv
          · simpa [hlt] using hnewWF
          · simpa [hlt] using hBest
      · intro i hi
        simp only [herase] at hi
        exact Or.inl hi
    · -- still below target
      refine ⟨⟨nodup_append_singleton hnd hnotin, hmem2, hsel.symm⟩, hBest, ?_⟩
      intro i hi
      rcases List.mem_append.mp hi with h | h
      · exact Or.inl h
      · simp only [List.mem_singleton] at h
        exact Or.inr h

theorem knapPass_spec (options : CoinSelectionOpt) (coins : ℕ → Bool)
    (adjusted_target : ℕ) (smaller : List (ℕ × ℕ × ℕ))
    (hnodup : (smaller.map (fun c => c.1)).Nodup) (pass : ℕ) :
    ∀ (todo : List (ℕ × ℕ × ℕ)) (st : KnapState),
      todo.Sublist smaller → KnapInv smaller st →
      BestWF smaller adjusted_target st.best →
      (pass = 1 → ∀ c ∈ todo, c.1 ∉ st.selected_inputs) →
      (match knapPass options coins adjusted_target smaller pass todo st with
       | .error out => KnapExact options smaller adjusted_target out
       | .ok st1 => KnapInv smaller st1 ∧ BestWF smaller adjusted_target st1.best ∧
           (∀ i ∈ st1.selected_inputs, i ∈ st.selected_inputs ∨
             i ∈ todo.map (fun c => c.1))) := by
  intro todo
  induction todo with
  | nil =>
      intro st _ hInv hBest _
      exact ⟨hInv, hBest, fun i hi => Or.inl hi⟩
  | cons c rest ih =>
      intro st hsub hInv hBest hp1
      have hcs : c ∈ smaller := hsub.subset (List.mem_cons_self _ _)
      have hrest_sub : rest.Sublist smaller :=
        (List.sublist_cons_self c rest).trans hsub
      have hcnotrest : c.1 ∉ rest.map (fun d => d.1) := by
        have hnd2 : ((c :: rest).map (fun d => d.1)).Nodup :=
          ((hsub.map (fun d => d.1))).nodup hnodup
        simp only [List.map_cons, List.nodup_cons] at hnd2
        exact hnd2.1
      have hstep := knapStep_spec options coins adjusted_target smaller hnodup pass st c
        hcs hInv hBest (fun h1 => hp1 h1 c (List.mem_cons_self _ _))
      simp only [knapPass]
      rcases hstepres : knapStep options coins adjusted_target smaller pass st c
        with out | st1
      · rw [hstepres] at hstep
        simp only [hstepres]
        exact hstep
      · rw [hstepres] at hstep
        obtain ⟨hInv1, hBest1, hgrow⟩ := hstep
        simp only [hstepres]
        have hrec := ih st1 hrest_sub hInv1 hBest1 (fun h1 c' hc' => by
          intro hmem1
          rcases hgrow c'.1 hmem1 with h | h
          · exact hp1 h1 c' (List.mem_cons_of_mem _ hc') h
          · exact hcnotrest (h ▸ List.mem_map.mpr ⟨c', hc', rfl⟩))
        rcases hrecres : knapPass options coins adjusted_target smaller pass rest st1
          with out2 | st2
        · rw [hrecres] at hrec
          exact hrec
        · rw [hrecres] at hrec
          obtain ⟨hInv2, hBest2, hgrow2⟩ := hrec
          refine ⟨hInv2, hBest2, fun i hi => ?_⟩
          rcases hgrow2 i hi with h | h
          · rcases hgrow i h with h2 | h2
            · exact Or.inl h2
            · exact Or.inr (by simp [h2])
          · refine Or.inr ?_
            simp only [List.map_cons]
            exact List.mem_cons_of_mem _ h

theorem selVal_nil_sel (smaller : List (ℕ × ℕ × ℕ)) : selVal smaller [] = 0 := by
  induction smaller with
  | nil => rfl
  | cons d rest ih => simp [selVal_cons, ih]

theorem knapTrial_spec (options : CoinSelectionOpt) (coins : ℕ → Bool)
    (adjusted_target : ℕ) (smaller : List (ℕ × ℕ × ℕ))
    (hnodup : (smaller.map (fun c => c.1)).Nodup) (st : KnapState)
    (hInv : KnapInv smaller st) (hBest : BestWF smaller adjusted_target st.best)
    (hsel : st.selected_inputs = []) :
    (match knapTrial options coins adjusted_target smaller st with
     | .error out => KnapExact options smaller adjusted_target out
     | .ok st1 => KnapInv smaller st1 ∧ BestWF smaller adjusted_target st1.best ∧
         st1.selected_inputs = []) := by
  have h1 := knapPass_spec options coins adjusted_target smaller hnodup 1 smaller st
    (List.Sublist.refl _) hInv hBest (fun _ c _ => by rw [hsel]; exact List.not_mem_nil _)
  rcases hp1 : knapPass options coins adjusted_target smaller 1 smaller st with out | st1
  · simp only [knapTrial, hp1]
    rw [hp1] at h1
    exact h1
  · rw [hp1] at h1
    obtain ⟨hInv1, hBest1, _⟩ := h1
    have h2 := knapPass_spec options coins adjusted_target smaller hnodup 2 smaller st1
      (List.Sublist.refl _) hInv1 hBest1 (fun h => absurd h (by decide))
    rcases hp2 : knapPass options coins adjusted_target smaller 2 smaller st1 with out | st2
    · simp only [knapTrial, hp1, hp2]
      rw [hp2] at h2
      exact h2
    · simp only [knapTrial, hp1, hp2]
      rw [hp2] at h2
      exact ⟨⟨List.nodup_nil, fun i hi => absurd hi (List.not_mem_nil _),
        (selVal_nil_sel smaller).symm⟩, h2.2.1, trivial⟩

theorem knapTrials_spec (options : CoinSelectionOpt) (coins : ℕ → Bool)
    (adjusted_target : ℕ) (smaller : List (ℕ × ℕ × ℕ))
    (hnodup : (smaller.map (fun c => c.1)).Nodup) :
    ∀ (n : ℕ) (st : KnapState),
      KnapInv smaller st → BestWF smaller adjusted_target st.best →
      st.selected_inputs = [] →
      (match knapTrials options coins adjusted_target smaller n st with
       | .error out => KnapExact options smaller adjusted_target out
       | .ok st1 => KnapInv smaller st1 ∧ BestWF smaller adjusted_target st1.best ∧
           st1.selected_inputs = []) := by
  intro n
  induction n with
  | zero =>
      intro st hInv hBest hsel
      exact ⟨hInv, hBest, hsel⟩
  | succ n ih =>
      intro st hInv hBest hsel
      have h1 := knapTrial_spec options coins adjusted_target smaller hnodup st hInv hBest hsel
      rcases ht : knapTrial options coins adjusted_target smaller st with out | st1
      · simp only [knapTrials, ht]
        rw [ht] at h1
        exact h1
      · simp only [knapTrials, ht]
        rw [ht] at h1
        obtain ⟨hInv1, hBest1, hsel1⟩ := h1
        exact ih st1 hInv1 hBest1 hsel1

theorem knap_sack_spec (coins : ℕ → Bool) (adjusted_target : ℕ)
    (smaller : List (ℕ × ℕ × ℕ)) (options : CoinSelectionOpt)
    (hnodup : (smaller.map (fun c => c.1)).Nodup) :
    (∀ out, knap_sack coins adjusted_target smaller options = .ok out →
      out.selected_inputs.Nodup ∧
      (∀ i ∈ out.selected_inputs, i ∈ smaller.map (fun c => c.1)) ∧
      adjusted_target ≤ selVal smaller out.selected_inputs ∧
      out.waste = calculate_waste options (selVal smaller out.selected_inputs)
        (calculate_accumulated_weight smaller out.selected_inputs)
        (feeRaw (calculate_accumulated_weight smaller out.selected_inputs)
          options.target_feerate)) ∧
    (∀ e, knap_sack coins adjusted_target smaller options = .error e →
      e = .noSolutionFound) := by
  have hInv0 : KnapInv smaller ⟨[], 0, none, 0⟩ :=
    ⟨List.nodup_nil, fun i hi => absurd hi (List.not_mem_nil _),
      (selVal_nil_sel smaller).symm⟩
  have h := knapTrials_spec options coins adjusted_target smaller hnodup 1000
    ⟨[], 0, none, 0⟩ hInv0 trivial rfl
  rcases ht : knapTrials options coins adjusted_target smaller 1000 ⟨[], 0, none, 0⟩
    with out | st
  · rw [ht] at h
    obtain ⟨hnd, hmem, hval, hwaste⟩ := h
    refine ⟨fun out2 hout2 => ?_, fun e he => ?_⟩
    · simp only [knap_sack, ht, Except.ok.injEq] at hout2
      subst hout2
      exact ⟨hnd, hmem, le_of_eq hval.symm, by rw [hwaste, hval]⟩
    · simp only [knap_sack, ht] at he
      exact Except.noConfusion he
  · rw [ht] at h
    obtain ⟨_, hBest, _⟩ := h
    rcases hb : st.best with _ | ⟨bs, bv⟩
    · refine ⟨fun out2 hout2 => ?_, fun e he => ?_⟩
      · simp only [knap_sack, ht, hb] at hout2
        exact Except.noConfusion hout2
      · simp only [knap_sack, ht, hb, Except.error.injEq] at he
        exact he.symm
    · rw [hb] at hBest
      obtain ⟨hnd, hmem, hval, hle⟩ := hBest
      refine ⟨fun out2 hout2 => ?_, fun e he => ?_⟩
      · simp only [knap_sack, ht, hb, Except.ok.injEq] at hout2
        subst hout2
        exact ⟨hnd, hmem, hval ▸ hle, by rw [← hval]⟩
      · simp only [knap_sack, ht, hb] at he
        exact Except.noConfusion he

theorem knapStep_small (options : CoinSelectionOpt) (coins : ℕ → Bool)
    (adjusted_target : ℕ) (smaller : List (ℕ × ℕ × ℕ))
    (hnodup : (smaller.map (fun c => c.1)).Nodup)
    (pass : ℕ) (st : KnapState) (c : ℕ × ℕ × ℕ)
    (hc : c ∈ smaller) (hInv : KnapInv smaller st)
    (hpass1 : pass = 1 → c.1 ∉ st.selected_inputs)
    (hsmall : (smaller.map (fun d => d.2.1)).sum < adjusted_target) :
    (match knapStep options coins adjusted_target smaller pass st c with
     | .error _ => False
     | .ok st1 => KnapInv smaller st1 ∧ st1.best = st.best ∧
         (∀ i ∈ st1.selected_inputs, i ∈ st.selected_inputs ∨ i = c.1)) := by
  obtain ⟨hnd, hmem, hval⟩ := hInv
  simp only [knapStep]
  by_cases hguard : (pass = 2 ∧ c.1 ∉ st.selected_inputs) ∨ (pass = 1 ∧ coins st.pos = true)
  case neg =>
    rw [if_neg hguard]
    exact ⟨⟨hnd, hmem, hval⟩, rfl, fun i hi => Or.inl hi⟩
  case pos =>
    have hnotin : c.1 ∉ st.selected_inputs := by
      rcases hguard with ⟨_, h⟩ | ⟨h1, _⟩
      · exact h
      · exact hpass1 h1
    rw [if_pos hguard]
    simp only [if_neg hnotin]
    have hsel : selVal smaller (st.selected_inputs ++ [c.1]) =
        st.accumulated_value + c.2.1 := by
      rw [selVal_insert smaller st.selected_inputs c hnodup hc hnotin, hval]
    have hbelow : st.accumulated_value + c.2.1 < adjusted_target := by
      have h1 := selVal_le_total smaller (st.selected_inputs ++ [c.1])
      omega
    rw [if_neg (by omega), if_neg (by omega)]
    refine ⟨⟨nodup_append_singleton hnd hnotin, ?_, hsel.symm⟩, rfl, ?_⟩
    · intro i hi
      rcases List.mem_append.mp hi with h | h
      · exact hmem i h
      · simp only [List.mem_singleton] at h
        subst h
        exact List.mem_map.mpr ⟨c, hc, rfl⟩
    · intro i hi
      rcases List.mem_append.mp hi with h | h
      · exact Or.inl h
      · simp only [List.mem_singleton] at h
        exact Or.inr h

theorem knapPass_small (options : CoinSelectionOpt) (coins : ℕ → Bool)
    (adjusted_target : ℕ) (smaller : List (ℕ × ℕ × ℕ))
    (hnodup : (smaller.map (fun c => c.1)).Nodup) (pass : ℕ)
    (hsmall : (smaller.map (fun d => d.2.1)).sum < adjusted_target) :
    ∀ (todo : List (ℕ × ℕ × ℕ)) (st : KnapState),
      todo.Sublist smaller → KnapInv smaller st →
      (pass = 1 → ∀ c ∈ todo, c.1 ∉ st.selected_inputs) →
      (match knapPass options coins adjusted_target smaller pass todo st with
       | .error _ => False
       | .ok st1 => KnapInv smaller st1 ∧ st1.best = st.best ∧
           (∀ i ∈ st1.selected_inputs, i ∈ st.selected_inputs ∨
             i ∈ todo.map (fun c => c.1))) := by
  intro todo
  induction todo with
  | nil =>
      intro st _ hInv _
      exact ⟨hInv, rfl, fun i hi => Or.inl hi⟩
  | cons c rest ih =>
      intro st hsub hInv hp1
      have hcs : c ∈ smaller := hsub.subset (List.mem_cons_self _ _)
      have hrest_sub : rest.Sublist smaller :=
        (List.sublist_cons_self c rest).trans hsub
      have hcnotrest : c.1 ∉ rest.map (fun d => d.1) := by
        have hnd2 : ((c :: rest).map (fun d => d.1)).Nodup :=
          ((hsub.map (fun d => d.1))).nodup hnodup
        simp only [List.map_cons, List.nodup_cons] at hnd2
        exact hnd2.1
      have hstep := knapStep_small options coins adjusted_target smaller hnodup pass st c
        hcs hInv (fun h1 => hp1 h1 c (List.mem_cons_self _ _)) hsmall
      rcases hstepres : knapStep options coins adjusted_target smaller pass st c
        with out | st1
      · rw [hstepres] at hstep
        exact hstep.elim
      · rw [hstepres] at hstep
        obtain ⟨hInv1, hBest1, hgrow⟩ := hstep
        simp only [knapPass, hstepres]
        have hrec := ih st1 hrest_sub hInv1 (fun h1 c' hc' => by
          intro hmem1
          rcases hgrow c'.1 hmem1 with h | h
          · exact hp1 h1 c' (List.mem_cons_of_mem _ hc') h
          · exact hcnotrest (h ▸ List.mem_map.mpr ⟨c', hc', rfl⟩))
        rcases hrecres : knapPass options coins adjusted_target smaller pass rest st1
          with out2 | st2
        · rw [hrecres] at hrec
          exact hrec.elim
        · rw [hrecres] at hrec
          obtain ⟨hInv2, hBest2, hgrow2⟩ := hrec
          refine ⟨hInv2, hBest2.trans hBest1, fun i hi => ?_⟩
          rcases hgrow2 i hi with h | h
          · rcases hgrow i h with h2 | h2
            · exact Or.inl h2
            · exact Or.inr (by simp [h2])
          · refine Or.inr ?_
            simp only [List.map_cons]
            exact List.mem_cons_of_mem _ h

theorem knapTrials_small (options : CoinSelectionOpt) (coins : ℕ → Bool)
    (adjusted_target : ℕ) (smaller : List (ℕ × ℕ × ℕ))
    (hnodup : (smaller.map (fun c => c.1)).Nodup)
    (hsmall : (smaller.map (fun d => d.2.1)).sum < adjusted_target) :
    ∀ (n : ℕ) (st : KnapState),
      KnapInv smaller st → st.selected_inputs = [] →
      (match knapTrials options coins adjusted_target smaller n st with
       | .error _ => False
       | .ok st1 => st1.best = st.best) := by
  intro n
  induction n with
  | zero =>
      intro st _ _
      rfl
  | succ n ih =>
      intro st hInv hsel
      have h1 := knapPass_small options coins adjusted_target smaller hnodup 1 hsmall
        smaller st (List.Sublist.refl _) hInv
        (fun _ c _ => by rw [hsel]; exact List.not_mem_nil _)
      rcases hp1 : knapPass options coins adjusted_target smaller 1 smaller st
        with out | st1
      · rw [hp1] at h1
        exact h1.elim
      · rw [hp1] at h1
        obtain ⟨hInv1, hBest1, _⟩ := h1
        have h2 := knapPass_small options coins adjusted_target smaller hnodup 2 hsmall
          smaller st1 (List.Sublist.refl _) hInv1 (fun h => absurd h (by decide))
        rcases hp2 : knapPass options coins adjusted_target smaller 2 smaller st1
          with out | st2
        · rw [hp2] at h2
          exact h2.elim
        · rw [hp2] at h2
          obtain ⟨hInv2, hBest2, _⟩ := h2
          have hrec := ih ⟨[], 0, st2.best, st2.pos⟩
            ⟨List.nodup_nil, fun i hi => absurd hi (List.not_mem_nil _),
              (selVal_nil_sel smaller).symm⟩ rfl
          simp only [knapTrials, knapTrial, hp1, hp2]
          rcases hts : knapTrials options coins adjusted_target smaller n
              ⟨[], 0, st2.best, st2.pos⟩ with out | st3
          · rw [hts] at hrec
            exact hrec.elim
          · have hrec2 : st3.best = st2.best := by
              rw [hts] at hrec
              exact hrec
            show st3.best = st.best
            rw [hrec2, hBest2, hBest1]

theorem knap_sack_small (coins : ℕ → Bool) (adjusted_target : ℕ)
    (smaller : List (ℕ × ℕ × ℕ)) (options : CoinSelectionOpt)
    (hnodup : (smaller.map (fun c => c.1)).Nodup)
    (hsmall : (smaller.map (fun d => d.2.1)).sum < adjusted_target) :
    knap_sack coins adjusted_target smaller options = .error .noSolutionFound := by
  have h := knapTrials_small options coins adjusted_target smaller hnodup hsmall 1000
    ⟨[], 0, none, 0⟩
    ⟨List.nodup_nil, fun i hi => absurd hi (List.not_mem_nil _),
      (selVal_nil_sel smaller).symm⟩ rfl
  rcases ht : knapTrials options coins adjusted_target smaller 1000 ⟨[], 0, none, 0⟩
    with out | st
  · rw [ht] at h
    exact h.elim
  · rw [ht] at h
    simp only [knap_sack, ht, h]

theorem smallerCoins_perm (inputs : List OutputGroup) (options : CoinSelectionOpt) :
    (smallerCoins inputs options).Perm
      ((inputs.enum.filter (fun p => decide (p.2.value < knapAdjustedTarget options))).map
        (fun p => (p.1, effective_value p.2 options.target_feerate, p.2.weight))) :=
  List.perm_insertionSort _ _

theorem smallerCoins_fst_nodup (inputs : List OutputGroup) (options : CoinSelectionOpt) :
    ((smallerCoins inputs options).map (fun c => c.1)).Nodup := by
  rw [((smallerCoins_perm inputs options).map (fun c : ℕ × ℕ × ℕ => c.1)).nodup_iff]
  rw [List.map_map]
  have hnr : ((inputs.enum).map (fun p : ℕ × OutputGroup => p.1)).Nodup := by
    rw [show (fun p : ℕ × OutputGroup => p.1) = Prod.fst from rfl, List.enum_map_fst]
    exact List.nodup_range _
  have hsub : ((inputs.enum.filter
      (fun p => decide (p.2.value < knapAdjustedTarget options))).map
        (fun p : ℕ × OutputGroup => p.1)).Sublist
      ((inputs.enum).map (fun p : ℕ × OutputGroup => p.1)) :=
    (List.filter_sublist _).map _
  exact hsub.nodup hnr

theorem smallerCoins_sum_le (inputs : List OutputGroup) (options : CoinSelectionOpt) :
    ((smallerCoins inputs options).map (fun c => c.2.1)).sum ≤ totalValue inputs := by
  rw [((smallerCoins_perm inputs options).map (fun c : ℕ × ℕ × ℕ => c.2.1)).sum_eq]
  rw [List.map_map]
  calc ((inputs.enum.filter
        (fun p => decide (p.2.value < knapAdjustedTarget options))).map
          ((fun c : ℕ × ℕ × ℕ => c.2.1) ∘
            (fun p : ℕ × OutputGroup =>
              (p.1, effective_value p.2 options.target_feerate, p.2.weight)))).sum
      ≤ ((inputs.enum.filter
          (fun p => decide (p.2.value < knapAdjustedTarget options))).map
            (fun p => p.2.value)).sum := by
        apply sum_map_le_sum_map
        intro p _
        simp only [Function.comp]
        rw [effective_value]
        exact Nat.sub_le _ _
    _ ≤ ((inputs.enum).map (fun p => p.2.value)).sum :=
        sublist_sum_le ((List.filter_sublist _).map _)
    _ = totalValue inputs := enum_map_value_sum inputs

theorem mem_smallerCoins {inputs : List OutputGroup} {options : CoinSelectionOpt}
    {c : ℕ × ℕ × ℕ} (hc : c ∈ smallerCoins inputs options) :
    ∃ p, p ∈ inputs.enum ∧ p.2.value < knapAdjustedTarget options ∧
      c = (p.1, effective_value p.2 options.target_feerate, p.2.weight) := by
  have h1 := (smallerCoins_perm inputs options).mem_iff.mp hc
  obtain ⟨p, hp, hpc⟩ := List.mem_map.mp h1
  obtain ⟨hpe, hpred⟩ := List.mem_filter.mp hp
  exact ⟨p, hpe, by simpa using hpred, hpc.symm⟩

/-- C8: whenever the total raw value of all candidates is strictly below
`target_value`, every one of the five algorithms fails, for every coin-flip
stream and every shuffle (BNB and Knapsack with `NoSolutionFound`, the
three greedy algorithms with `InsufficientFunds`). -/
theorem all_algorithms_err_of_insufficient (coinsB coinsK : ℕ → Bool)
    (randomized_inputs : List (ℕ × OutputGroup)) (inputs : List OutputGroup)
    (options : CoinSelectionOpt)
    (hperm : randomized_inputs.Perm inputs.enum)
    (h : totalValue inputs < options.target_value) :
    select_coin_bnb coinsB inputs options = .error .noSolutionFound ∧
    select_coin_fifo inputs options = .error .insufficientFunds ∧
    select_coin_lowestlarger inputs options = .error .insufficientFunds ∧
    select_coin_srd randomized_inputs options = .error .insufficientFunds ∧
    select_coin_knapsack coinsK inputs options = .error .noSolutionFound := by
  refine ⟨select_coin_bnb_err_of_insufficient coinsB inputs options h,
    select_coin_fifo_err_of_insufficient inputs options h,
    select_coin_lowestlarger_err_of_insufficient inputs options h,
    select_coin_srd_err_of_insufficient randomized_inputs inputs options hperm h, ?_⟩
  rw [select_coin_knapsack]
  apply knap_sack_small
  · exact smallerCoins_fst_nodup inputs options
  · have h1 := smallerCoins_sum_le inputs options
    have h2 : options.target_value ≤ knapAdjustedTarget options := by
      rw [knapAdjustedTarget]
      omega
    omega

theorem knapTrials_nil (options : CoinSelectionOpt) (coins : ℕ → Bool)
    (adjusted_target : ℕ) :
    ∀ (n : ℕ) (p : ℕ), knapTrials options coins adjusted_target [] n ⟨[], 0, none, p⟩ =
      .ok ⟨[], 0, none, p⟩ := by
  intro n
  induction n with
  | zero => intro p; rfl
  | succ n ih =>
      intro p
      simp only [knapTrials, knapTrial, knapPass]
      exact ih p

theorem knap_sack_nil (coins : ℕ → Bool) (adjusted_target : ℕ)
    (options : CoinSelectionOpt) :
    knap_sack coins adjusted_target [] options = .error .noSolutionFound := by
  rw [knap_sack, knapTrials_nil options coins adjusted_target 1000 0]

/-- C10: `select_coin_knapsack` never selects a candidate whose raw value is
at least `adjusted_target = target_value + min_change_value +
fee(base_weight, target_feerate)` (such candidates are filtered out of
`smaller_coins`); consequently, when every candidate's value is at least
the adjusted target, it returns `NoSolutionFound` even though the total
value may cover the target. -/
theorem select_coin_knapsack_skips_large (coins : ℕ → Bool)
    (inputs : List OutputGroup) (options : CoinSelectionOpt) :
    (∀ out, select_coin_knapsack coins inputs options = .ok out →
      ∀ i ∈ out.selected_inputs,
        (inputs.getD i default).value < knapAdjustedTarget options) ∧
    ((∀ og ∈ inputs, knapAdjustedTarget options ≤ og.value) →
      select_coin_knapsack coins inputs options = .error .noSolutionFound) := by
  constructor
  · intro out hout i hi
    rw [select_coin_knapsack] at hout
    have hspec := (knap_sack_spec coins (knapAdjustedTarget options)
      (smallerCoins inputs options) options (smallerCoins_fst_nodup inputs options)).1
      out hout
    have hmem := hspec.2.1 i hi
    obtain ⟨c, hc, hci⟩ := List.mem_map.mp hmem
    obtain ⟨p, hpe, hplt, hceq⟩ := mem_smallerCoins hc
    have hpi : p.1 = i := by rw [← hci, hceq]
    have hgd := (mem_enum_getD hpe).2
    rw [← hpi, hgd]
    exact hplt
  · intro hall
    have hfilter : inputs.enum.filter
        (fun p => decide (p.2.value < knapAdjustedTarget options)) = [] := by
      rw [List.filter_eq_nil_iff]
      intro p hp
      simp only [decide_eq_true_eq]
      have h2 := mem_enum_getD hp
      have hmemin : p.2 ∈ inputs := by
        rw [← h2.2, List.getD_eq_getElem _ _ h2.1]
        exact List.getElem_mem _
      exact not_lt.mpr (hall p.2 hmemin)
    have hsm : smallerCoins inputs options = [] := by
      rw [smallerCoins, hfilter]
      rfl
    rw [select_coin_knapsack, hsm]
    exact knap_sack_nil _ _ _

/-- Index validity of a selection result: all indices in range, none
selected twice. -/
def ValidSel (inputs : List OutputGroup) (out : SelectionOutput) : Prop :=
  out.selected_inputs.Nodup ∧ ∀ i ∈ out.selected_inputs, i < inputs.length

theorem sel_sublist_valid {l2 sel : List (ℕ × OutputGroup)} {inputs : List OutputGroup}
    (hperm : l2.Perm inputs.enum) (hsub : sel.Sublist l2) :
    (sel.map Prod.fst).Nodup ∧ ∀ i ∈ sel.map Prod.fst, i < inputs.length := by
  have hnd : (l2.map Prod.fst).Nodup := by
    rw [(hperm.map Prod.fst).nodup_iff, List.enum_map_fst]
    exact List.nodup_range _
  constructor
  · exact (hsub.map Prod.fst).nodup hnd
  · intro i hi
    obtain ⟨p, hp, hpi⟩ := List.mem_map.mp hi
    have hpe : p ∈ inputs.enum := hperm.subset (hsub.subset hp)
    rw [← hpi]
    exact (mem_enum_getD hpe).1

/-- The list of the five per-algorithm results of one dispatcher run. -/
def algorithmResults (coinsB coinsK : ℕ → Bool)
    (randomized_inputs : List (ℕ × OutputGroup)) (inputs : List OutputGroup)
    (options : CoinSelectionOpt) : List (Except SelectionError SelectionOutput) :=
  [select_coin_bnb coinsB inputs options,
   select_coin_fifo inputs options,
   select_coin_lowestlarger inputs options,
   select_coin_srd randomized_inputs options,
   select_coin_knapsack coinsK inputs options]

theorem dispatcher_fold_mem :
    ∀ (rs : List (Except SelectionError SelectionOutput)) (s : SharedState) (out : SelectionOutput),
      (rs.foldl dispatcherStep s).result = .ok out → .ok out ∈ rs ∨ s.result = .ok out := by
  intro rs
  induction rs with
  | nil =>
      intro s out h
      exact Or.inr h
  | cons r rest ih =>
      intro s out h
      simp only [List.foldl_cons] at h
      rcases ih (dispatcherStep s r) out h with hmem | hres
      · exact Or.inl (List.mem_cons_of_mem _ hmem)
      · cases r with
        | ok o =>
            cases hre : s.result with
            | ok best =>
                by_cases hlt : o.waste < best.waste
                · simp only [dispatcherStep, hre, if_pos hlt] at hres
                  simp only [Except.ok.injEq] at hres
                  exact Or.inl (by rw [hres]; exact List.mem_cons_self _ _)
                · simp only [dispatcherStep, hre, if_neg hlt] at hres
                  exact Or.inr hres
            | error e =>
                simp only [dispatcherStep, hre] at hres
                simp only [Except.ok.injEq] at hres
                exact Or.inl (by rw [hres]; exact List.mem_cons_self _ _)
        | error e =>
            by_cases hc : e = SelectionError.insufficientFunds ∧ s.any_success = false
            · simp only [dispatcherStep, if_pos hc] at hres
              exact Except.noConfusion hres
            · simp only [dispatcherStep, if_neg hc] at hres
              exact Or.inr hres

theorem select_coin_bnb_ok_valid (coins : ℕ → Bool) (inputs : List OutputGroup)
    (options : CoinSelectionOpt) (out : SelectionOutput)
    (hout : select_coin_bnb coins inputs options = .ok out) : ValidSel inputs out := by
  rcases hres : bnb (bnbParams options) coins (bnbSorted inputs) [] 0 1000000 with ⟨o, t⟩
  cases o with
  | some sel =>
      obtain ⟨chosen, hsub, hressel, _, _⟩ :=
        bnb_some_spec (bnbParams options) coins (bnbSorted inputs) [] 0 1000000 sel t hres
      have hseleq : out.selected_inputs = sel := by
        rw [select_coin_bnb, hres] at hout
        simp only [Except.ok.injEq] at hout
        rw [← hout]
      have hchosen : out.selected_inputs = chosen.map Prod.fst := by
        rw [hseleq, hressel]
        simp
      obtain ⟨h1, h2⟩ := sel_sublist_valid (bnbSorted_perm inputs) hsub
      rw [ValidSel, hchosen]
      exact ⟨h1, h2⟩
  | none =>
      rw [select_coin_bnb, hres] at hout
      exact Except.noConfusion hout

theorem select_coin_fifo_ok_valid (inputs : List OutputGroup)
    (options : CoinSelectionOpt) (out : SelectionOutput)
    (hout : select_coin_fifo inputs options = .ok out) : ValidSel inputs out := by
  obtain ⟨k, hsel, _, _⟩ := fifoLoop_spec options (fifoSorted inputs) ⟨0, 0, [], 0⟩
  rw [show (⟨0, 0, [], 0⟩ : AccState).selected_inputs = [] from rfl] at hsel
  rw [select_coin_fifo] at hout
  split_ifs at hout
  simp only [Except.ok.injEq] at hout
  have hseleq : out.selected_inputs = ((fifoSorted inputs).take k).map Prod.fst := by
    rw [← hout]
    simp only [hsel, List.nil_append]
  obtain ⟨h1, h2⟩ := sel_sublist_valid (fifoSorted_perm inputs) (List.take_sublist _ _)
  rw [ValidSel, hseleq]
  exact ⟨h1, h2⟩

theorem select_coin_srd_ok_valid (randomized_inputs : List (ℕ × OutputGroup))
    (inputs : List OutputGroup) (options : CoinSelectionOpt)
    (hperm : randomized_inputs.Perm inputs.enum) (out : SelectionOutput)
    (hout : select_coin_srd randomized_inputs options = .ok out) : ValidSel inputs out := by
  obtain ⟨k, hsel, _, _⟩ := srdLoop_spec options randomized_inputs ⟨0, 0, [], 0⟩
  rw [show (⟨0, 0, [], 0⟩ : AccState).selected_inputs = [] from rfl] at hsel
  rw [select_coin_srd] at hout
  split_ifs at hout
  simp only [Except.ok.injEq] at hout
  have hseleq : out.selected_inputs = (randomized_inputs.take k).map Prod.fst := by
    rw [← hout]
    simp only [hsel, List.nil_append]
  obtain ⟨h1, h2⟩ := sel_sublist_valid hperm (List.take_sublist _ _)
  rw [ValidSel, hseleq]
  exact ⟨h1, h2⟩

theorem select_coin_lowestlarger_ok_valid (inputs : List OutputGroup)
    (options : CoinSelectionOpt) (out : SelectionOutput)
    (hout : select_coin_lowestlarger inputs options = .ok out) : ValidSel inputs out := by
  rw [select_coin_lowestlarger] at hout
  set target := options.target_value + options.min_change_value with htarget
  set sorted_inputs := llSorted inputs options with hsorted
  set index := partitionPoint (llPred options target) sorted_inputs with hindex
  obtain ⟨k1, hsel1, _, _⟩ :=
    llLoop_spec options target ((sorted_inputs.take index).reverse) ⟨0, 0, [], 0⟩
  rw [show (⟨0, 0, [], 0⟩ : AccState).selected_inputs = [] from rfl] at hsel1
  set st1 := llLoop options target ((sorted_inputs.take index).reverse) ⟨0, 0, [], 0⟩
    with hst1
  have hperm2 : ((sorted_inputs.take index).reverse ++ sorted_inputs.drop index).Perm
      inputs.enum := by
    refine List.Perm.trans ?_ (llSorted_perm inputs options)
    have h1 : ((sorted_inputs.take index).reverse).Perm (sorted_inputs.take index) :=
      List.reverse_perm _
    have h2 := h1.append_right (sorted_inputs.drop index)
    rw [List.take_append_drop] at h2
    exact h2
  by_cases hc : st1.accumulated_value < target + max st1.estimated_fees options.min_absolute_fee
  · rw [if_pos hc] at hout
    obtain ⟨k2, hsel2, _, _⟩ :=
      llLoop_spec options target (sorted_inputs.drop index) st1
    split_ifs at hout
    simp only [Except.ok.injEq] at hout
    have hseleq : out.selected_inputs =
        ((((sorted_inputs.take index).reverse.take k1) ++
          ((sorted_inputs.drop index).take k2)).map Prod.fst) := by
      rw [← hout, hsel2, hsel1]
      simp [List.map_append]
    have hsub : (((sorted_inputs.take index).reverse.take k1) ++
        ((sorted_inputs.drop index).take k2)).Sublist
        ((sorted_inputs.take index).reverse ++ sorted_inputs.drop index) :=
      List.Sublist.append (List.take_sublist _ _) (List.take_sublist _ _)
    obtain ⟨h1, h2⟩ := sel_sublist_valid hperm2 hsub
    rw [ValidSel, hseleq]
    exact ⟨h1, h2⟩
  · rw [if_neg hc] at hout
    split_ifs at hout
    simp only [Except.ok.injEq] at hout
    have hseleq : out.selected_inputs =
        (((sorted_inputs.take index).reverse.take k1).map Prod.fst) := by
      rw [← hout, hsel1]
      simp
    have hsub : ((sorted_inputs.take index).reverse.take k1).Sublist
        ((sorted_inputs.take index).reverse ++ sorted_inputs.drop index) :=
      (List.take_sublist _ _).trans (List.sublist_append_left _ _)
    obtain ⟨h1, h2⟩ := sel_sublist_valid hperm2 hsub
    rw [ValidSel, hseleq]
    exact ⟨h1, h2⟩

theorem select_coin_knapsack_ok_valid (coins : ℕ → Bool) (inputs : List OutputGroup)
    (options : CoinSelectionOpt) (out : SelectionOutput)
    (hout : select_coin_knapsack coins inputs options = .ok out) : ValidSel inputs out := by
  rw [select_coin_knapsack] at hout
  have hspec := (knap_sack_spec coins (knapAdjustedTarget options)
    (smallerCoins inputs options) options (smallerCoins_fst_nodup inputs options)).1
    out hout
  refine ⟨hspec.1, fun i hi => ?_⟩
  have hmem := hspec.2.1 i hi
  obtain ⟨c, hc, hci⟩ := List.mem_map.mp hmem
  obtain ⟨p, hpe, _, hceq⟩ := mem_smallerCoins hc
  have hpi : p.1 = i := by rw [← hci, hceq]
  rw [← hpi]
  exact (mem_enum_getD hpe).1

/-- C9: every successful SelectionOutput returned by any of the five
algorithms, or by the dispatcher run over their results in any order,
has all selected indices strictly below the candidate-list length and
contains no index twice. -/
theorem selection_indices_valid (coinsB coinsK : ℕ → Bool)
    (randomized_inputs : List (ℕ × OutputGroup)) (inputs : List OutputGroup)
    (options : CoinSelectionOpt)
    (hperm : randomized_inputs.Perm inputs.enum)
    (order : List (Except SelectionError SelectionOutput))
    (horder : order.Perm (algorithmResults coinsB coinsK randomized_inputs inputs options)) :
    (∀ out, select_coin_bnb coinsB inputs options = .ok out → ValidSel inputs out) ∧
    (∀ out, select_coin_fifo inputs options = .ok out → ValidSel inputs out) ∧
    (∀ out, select_coin_lowestlarger inputs options = .ok out → ValidSel inputs out) ∧
    (∀ out, select_coin_srd randomized_inputs options = .ok out → ValidSel inputs out) ∧
    (∀ out, select_coin_knapsack coinsK inputs options = .ok out → ValidSel inputs out) ∧
    (∀ out, select_coin order = .ok out → ValidSel inputs out) := by
  refine ⟨fun out h => select_coin_bnb_ok_valid coinsB inputs options out h,
    fun out h => select_coin_fifo_ok_valid inputs options out h,
    fun out h => select_coin_lowestlarger_ok_valid inputs options out h,
    fun out h => select_coin_srd_ok_valid randomized_inputs inputs options hperm out h,
    fun out h => select_coin_knapsack_ok_valid coinsK inputs options out h,
    fun out h => ?_⟩
  rw [select_coin] at h
  rcases dispatcher_fold_mem order initSharedState out h with hmem | hinit
  · have hmem2 : Except.ok out ∈
        algorithmResults coinsB coinsK randomized_inputs inputs options :=
      horder.subset hmem
    simp only [algorithmResults, List.mem_cons, List.not_mem_nil, or_false] at hmem2
    rcases hmem2 with h1 | h1 | h1 | h1 | h1
    · exact select_coin_bnb_ok_valid coinsB inputs options out h1.symm
    · exact select_coin_fifo_ok_valid inputs options out h1.symm
    · exact select_coin_lowestlarger_ok_valid inputs options out h1.symm
    · exact select_coin_srd_ok_valid randomized_inputs inputs options hperm out h1.symm
    · exact select_coin_knapsack_ok_valid coinsK inputs options out h1.symm
  · exact absurd hinit (by rw [initSharedState]; exact fun hc => Except.noConfusion hc)

/-- Modelled from the spec words for claim C6: the claimed phase order of
`select_coin_lowestlarger` — first walk the large-enough suffix in reverse,
then, only if that did not reach the bound, walk the too-small prefix. -/
def lowestlarger_claimC6 (inputs : List OutputGroup)
    (options : CoinSelectionOpt) : Except SelectionError SelectionOutput :=
  let target := options.target_value + options.min_change_value
  let sorted_inputs := llSorted inputs options
  let index := partitionPoint (llPred options target) sorted_inputs
  let st1 := llLoop options target ((sorted_inputs.drop index).reverse) ⟨0, 0, [], 0⟩
  let st2 :=
    if st1.accumulated_value < target + max st1.estimated_fees options.min_absolute_fee then
      llLoop options target (sorted_inputs.take index) st1
    else st1
  if st2.accumulated_value < target + max st2.estimated_fees options.min_absolute_fee then
    .error .insufficientFunds
  else
    .ok ⟨st2.selected_inputs,
      calculate_waste options st2.accumulated_value st2.accumulated_weight st2.estimated_fees⟩

def llExInputs : List OutputGroup := [⟨10, 0, 1, none⟩, ⟨100, 0, 1, none⟩]

def llExOpts : CoinSelectionOpt := ⟨20, 1, none, 0, 0, 0, 3, 0, 0, 0, .toChange⟩

theorem select_coin_lowestlarger_phase_counterexample :
    select_coin_lowestlarger llExInputs llExOpts = .ok ⟨[0, 1], 3⟩ ∧
    lowestlarger_claimC6 llExInputs llExOpts = .ok ⟨[1], 3⟩ ∧
    select_coin_lowestlarger llExInputs llExOpts ≠ lowestlarger_claimC6 llExInputs llExOpts := by
  refine ⟨?_, ?_, ?_⟩ <;> decide

/-- C6: amended phase order of the code — every successful selection is a
block drawn from the reversed too-small prefix FOLLOWED by a block drawn
forward from the large-enough suffix (the claim's phase order, suffix
first, is refuted by `lowestlarger_claimC6` at `llExInputs`), and the only
error the function produces is InsufficientFunds. -/
theorem select_coin_lowestlarger_phase_order (inputs : List OutputGroup)
    (options : CoinSelectionOpt) :
    ∃ k1 k2,
      (∀ out, select_coin_lowestlarger inputs options = .ok out →
        out.selected_inputs =
          ((((llSorted inputs options).take (partitionPoint
              (llPred options (options.target_value + options.min_change_value))
              (llSorted inputs options))).reverse.take k1).map Prod.fst) ++
          ((((llSorted inputs options).drop (partitionPoint
              (llPred options (options.target_value + options.min_change_value))
              (llSorted inputs options))).take k2).map Prod.fst)) ∧
      (∀ e, select_coin_lowestlarger inputs options = .error e →
        e = .insufficientFunds) := by
  set target := options.target_value + options.min_change_value with htarget
  set sorted_inputs := llSorted inputs options with hsorted
  set index := partitionPoint (llPred options target) sorted_inputs with hindex
  obtain ⟨k1, hsel1, _, _⟩ :=
    llLoop_spec options target ((sorted_inputs.take index).reverse) ⟨0, 0, [], 0⟩
  rw [show (⟨0, 0, [], 0⟩ : AccState).selected_inputs = [] from rfl] at hsel1
  set st1 := llLoop options target ((sorted_inputs.take index).reverse) ⟨0, 0, [], 0⟩
    with hst1
  by_cases hc : st1.accumulated_value < target + max st1.estimated_fees options.min_absolute_fee
  · obtain ⟨k2, hsel2, _, _⟩ := llLoop_spec options target (sorted_inputs.drop index) st1
    refine ⟨k1, k2, fun out hout => ?_, fun e he => ?_⟩
    · rw [select_coin_lowestlarger] at hout
      rw [if_pos hc] at hout
      split_ifs at hout
      simp only [Except.ok.injEq] at hout
      rw [← hout, hsel2, hsel1]
      simp [List.map_append]
    · rw [select_coin_lowestlarger] at he
      rw [if_pos hc] at he
      split_ifs at he
      simp only [Except.error.injEq] at he
      exact he.symm
  · refine ⟨k1, 0, fun out hout => ?_, fun e he => ?_⟩
    · rw [select_coin_lowestlarger] at hout
      rw [if_neg hc] at hout
      split_ifs at hout
      simp only [Except.ok.injEq] at hout
      rw [← hout, hsel1]
      simp
    · rw [select_coin_lowestlarger] at he
      rw [if_neg hc] at he
      split_ifs at he
      simp only [Except.error.injEq] at he
      exact he.symm

/-- C7: behaviour of `select_coin_knapsack` over its 1000 trials.  An
early exact-match return from a trial (modelled as the `.error` outcome of
`knapTrials`) becomes the overall result immediately, and its accumulated
effective value is exactly the adjusted target; when the trials finish
with a recorded best set, that set is returned with weight, fee and waste
recomputed over it, and its value reached or exceeded the adjusted
target; when the trials finish with no recorded best set, the result is
`NoSolutionFound`. -/
theorem select_coin_knapsack_trials (coins : ℕ → Bool) (inputs : List OutputGroup)
    (options : CoinSelectionOpt) :
    (∀ out,
      knapTrials options coins (knapAdjustedTarget options) (smallerCoins inputs options)
          1000 ⟨[], 0, none, 0⟩ = .error out →
        select_coin_knapsack coins inputs options = .ok out ∧
        KnapExact options (smallerCoins inputs options) (knapAdjustedTarget options) out) ∧
    (∀ st,
      knapTrials options coins (knapAdjustedTarget options) (smallerCoins inputs options)
          1000 ⟨[], 0, none, 0⟩ = .ok st →
        (∀ bs bv, st.best = some (bs, bv) →
          select_coin_knapsack coins inputs options =
            .ok ⟨bs, calculate_waste options bv
              (calculate_accumulated_weight (smallerCoins inputs options) bs)
              (feeRaw (calculate_accumulated_weight (smallerCoins inputs options) bs)
                options.target_feerate)⟩ ∧
          bv = selVal (smallerCoins inputs options) bs ∧
          knapAdjustedTarget options ≤ bv) ∧
        (st.best = none →
          select_coin_knapsack coins inputs options = .error .noSolutionFound)) := by
  have hspec := knapTrials_spec options coins (knapAdjustedTarget options)
    (smallerCoins inputs options) (smallerCoins_fst_nodup inputs options) 1000
    ⟨[], 0, none, 0⟩
    ⟨List.nodup_nil, fun i hi => absurd hi (List.not_mem_nil _),
      (selVal_nil_sel (smallerCoins inputs options)).symm⟩ trivial rfl
  refine ⟨fun out ht => ?_, fun st ht => ⟨fun bs bv hb => ?_, fun hb => ?_⟩⟩
  · rw [ht] at hspec
    exact ⟨by simp only [select_coin_knapsack, knap_sack, ht], hspec⟩
  · rw [ht] at hspec
    obtain ⟨_, hBest, _⟩ := hspec
    rw [hb] at hBest
    obtain ⟨_, _, hval, hle⟩ := hBest
    exact ⟨by simp only [select_coin_knapsack, knap_sack, ht, hb], hval, hle⟩
  · simp only [select_coin_knapsack, knap_sack, ht, hb]

/-- C1: whenever the dispatcher `select_coin`, run over the five
per-algorithm results in any completion order, returns a success, its
waste is at most the waste of every individual algorithm that succeeded
on the same inputs and options. -/
theorem select_coin_waste_optimal (coinsB coinsK : ℕ → Bool)
    (randomized_inputs : List (ℕ × OutputGroup)) (inputs : List OutputGroup)
    (options : CoinSelectionOpt)
    (order : List (Except SelectionError SelectionOutput))
    (horder : order.Perm (algorithmResults coinsB coinsK randomized_inputs inputs options)) :
    ∀ out, select_coin order = .ok out →
      (∀ o, select_coin_bnb coinsB inputs options = .ok o → out.waste ≤ o.waste) ∧
      (∀ o, select_coin_fifo inputs options = .ok o → out.waste ≤ o.waste) ∧
      (∀ o, select_coin_lowestlarger inputs options = .ok o → out.waste ≤ o.waste) ∧
      (∀ o, select_coin_srd randomized_inputs options = .ok o → out.waste ≤ o.waste) ∧
      (∀ o, select_coin_knapsack coinsK inputs options = .ok o → out.waste ≤ o.waste) := by
  intro out hout
  rw [select_coin] at hout
  have hmin := (dispatcher_fold_ok order initSharedState initSharedState_wf out hout).1
  have hof : ∀ o, Except.ok o ∈
      algorithmResults coinsB coinsK randomized_inputs inputs options →
      out.waste ≤ o.waste := fun o ho => hmin o (horder.mem_iff.mpr ho)
  refine ⟨fun o ho => hof o ?_, fun o ho => hof o ?_, fun o ho => hof o ?_,
    fun o ho => hof o ?_, fun o ho => hof o ?_⟩ <;> rw [algorithmResults, ← ho]
  · exact List.mem_cons_self _ _
  · exact List.mem_cons_of_mem _ (List.mem_cons_self _ _)
  · exact List.mem_cons_of_mem _ (List.mem_cons_of_mem _ (List.mem_cons_self _ _))
  · exact List.mem_cons_of_mem _ (List.mem_cons_of_mem _ (List.mem_cons_of_mem _
      (List.mem_cons_self _ _)))
  · exact List.mem_cons_of_mem _ (List.mem_cons_of_mem _ (List.mem_cons_of_mem _
      (List.mem_cons_of_mem _ (List.mem_cons_self _ _))))

/-- A coin stream that always answers `true` (every random inclusion is
taken). -/
def coinsTrue : ℕ → Bool := fun _ => true

def exInputs : List OutputGroup := [⟨100, 0, 1, none⟩]

def exOpts : CoinSelectionOpt := ⟨90, 1, none, 0, 0, 0, 7, 5, 5, 0, .toChange⟩

set_option maxRecDepth 40000 in
theorem select_coin_waste_optimal_witness :
    select_coin (algorithmResults coinsTrue coinsTrue exInputs.enum exInputs exOpts) =
      .ok ⟨[0], 7⟩ ∧ (7 : ℕ) ≤ 7 :=
  ⟨rfl,
   (select_coin_waste_optimal coinsTrue coinsTrue exInputs.enum exInputs exOpts
      (algorithmResults coinsTrue coinsTrue exInputs.enum exInputs exOpts)
      (List.Perm.refl _) ⟨[0], 7⟩ rfl).2.1 ⟨[0], 7⟩ rfl⟩

set_option maxRecDepth 40000 in
theorem selection_indices_valid_witness :
    ValidSel exInputs (⟨[0], 7⟩ : SelectionOutput) :=
  (selection_indices_valid coinsTrue coinsTrue exInputs.enum exInputs exOpts
    (List.Perm.refl _)
    (algorithmResults coinsTrue coinsTrue exInputs.enum exInputs exOpts)
    (List.Perm.refl _)).2.1 ⟨[0], 7⟩ rfl

def c8Inputs : List OutputGroup := [⟨10, 0, 1, none⟩]

def c8Opts : CoinSelectionOpt := ⟨100, 1, none, 0, 0, 0, 0, 0, 0, 0, .toChange⟩

theorem all_algorithms_err_of_insufficient_witness :
    select_coin_fifo c8Inputs c8Opts = .error .insufficientFunds ∧
    select_coin_knapsack coinsTrue c8Inputs c8Opts = .error .noSolutionFound :=
  ⟨(all_algorithms_err_of_insufficient coinsTrue coinsTrue c8Inputs.enum c8Inputs c8Opts
      (List.Perm.refl _) (by decide)).2.1,
   (all_algorithms_err_of_insufficient coinsTrue coinsTrue c8Inputs.enum c8Inputs c8Opts
      (List.Perm.refl _) (by decide)).2.2.2.2⟩
